import Mathlib

/-!
# FileStorage.jsx: hierarchical namespace over a flat object store

A shallow embedding of `src/src/FileStorage.jsx`.

* JavaScript strings are lists of characters (`Str`); `split('/')` is
  `List.splitOn '/'`, `join('/')` is `List.intercalate ['/']`.
* The React component state (`useState` cells) is the record `State`.
* The Firebase storage handle is an explicit capability `ObjectStore σ`
  threaded through every operation; `World σ` pairs the store with the log of
  store calls issued so far.
* An awaited store call is atomic: it takes effect and settles before the
  `async` function goes on.
* `deleteFolderRecursive` has many calls in flight at once. They settle one at
  a time in an order chosen by a schedule `sched`, an arbitrary function, so
  that every timing of the network is covered; `fuel` bounds the number of
  calls that settle, and the result is `none` when the bound is hit.
-/

namespace FileStorage

/-- JavaScript string, as the list of its characters. -/
abbrev Str := List Char

/-! ## Component state (lines 5-8) -/

/-- The value held by `filesAndFolders`. -/
structure Snapshot where
  files : List Str
  folders : List Str
  deriving DecidableEq, Repr

/-- The `useState` cells of the component. -/
structure State where
  currentPath : Str
  filesAndFolders : Snapshot
  newFolderName : Str
  statusMessage : Str
  deriving DecidableEq, Repr

/-- Values of the `useState` cells on first render. -/
def initialState : State :=
  { currentPath := [], filesAndFolders := { files := [], folders := [] },
    newFolderName := [], statusMessage := [] }

/-! ## Path helpers (lines 13-15) -/

/-- Line 13: `currentPath ? currentPath + '/' + name : name`. -/
def getFullPath (currentPath name : Str) : Str :=
  if currentPath ≠ [] then currentPath ++ '/' :: name else name

/-- Line 14: `path.split('/').filter(part => part !== '')`. -/
def getFolderPathParts (path : Str) : List Str :=
  (path.splitOn '/').filter (fun part => part ≠ [])

/-- Line 15: `getFolderPathParts(path).length >= 6`. -/
def isMaxNestedLevelReached (path : Str) : Bool :=
  decide ((getFolderPathParts path).length ≥ 6)

/-- Array `join('/')`. -/
def joinPath (parts : List Str) : Str :=
  List.intercalate ['/'] parts

/-- Depth of a path: the number of non-empty `/`-separated segments. -/
def depth (path : Str) : Nat :=
  (getFolderPathParts path).length

/-- A single valid segment: non-empty and free of the delimiter. -/
def ValidSegment (name : Str) : Prop :=
  name ≠ [] ∧ '/' ∉ name

instance (name : Str) : Decidable (ValidSegment name) :=
  inferInstanceAs (Decidable (_ ∧ _))

/-! ## Navigation (lines 114-127) -/

def msgCannotNavigate : Str :=
  "Cannot navigate deeper. Maximum 6 nested folder levels allowed.".toList

/-- Lines 114-122. -/
def enterFolder (s : State) (folderName : Str) : State :=
  let newPath := if s.currentPath ≠ [] then s.currentPath ++ '/' :: folderName else folderName
  let parts := getFolderPathParts newPath
  if parts.length > 6 then
    { s with statusMessage := msgCannotNavigate }
  else
    { s with currentPath := newPath }

/-- Lines 123-127: `parts.pop()` drops the last element (nothing on an empty
array); `parts.join('/') || ''` is the joined string. -/
def goBack (s : State) : State :=
  let parts := getFolderPathParts s.currentPath
  let parts := parts.dropLast
  { s with currentPath := joinPath parts }

/-- One user navigation event. -/
inductive NavAction where
  | enter (folderName : Str)
  | back
  deriving DecidableEq, Repr

/-- Effect of one navigation event on the component state. -/
def navStep (s : State) : NavAction → State
  | .enter folderName => enterFolder s folderName
  | .back => goBack s

/-- State after a finite sequence of navigation events from the initial state. -/
def navigate (actions : List NavAction) : State :=
  actions.foldl navStep initialState

/-! ## The object store capability (`firebase/storage`, lines 2-3) -/

/-- A call made on the storage handle. `ref(storage, p)` is the reference
addressed by the string `p`, so a call is identified by that string. -/
inductive StoreCall where
  /-- The call `uploadBytes(ref(storage, key), blob)` with the blob's bytes. -/
  | put (key : Str) (bytes : List Nat)
  /-- The call `deleteObject(ref(storage, key))`. -/
  | delete (key : Str)
  /-- The call `listAll(ref(storage, path))`. -/
  | list (path : Str)
  deriving DecidableEq, Repr

/-- The error a rejected store call carries; the component reads only
`error.message`. -/
structure StoreError where
  message : Str
  deriving DecidableEq, Repr

/-- A storage reference as the component reads it: `fullPath` and `name`. -/
structure Reference where
  fullPath : Str
  name : Str
  deriving DecidableEq, Repr

/-- The value `listAll` resolves to. -/
structure ListResult where
  prefixes : List Reference
  items : List Reference
  deriving DecidableEq, Repr

/-- Modelled from the spec: the ObjectStoreClient collaborator of section 6
(`put`, `delete`, `listOneLevel`), which the source imports from
`firebase/storage` as `uploadBytes`, `deleteObject` and `listAll`. Each call
takes the store state and returns the new state with either a result or the
message of the error it rejects with. -/
structure ObjectStore (σ : Type) where
  uploadBytes : σ → Str → List Nat → σ × Except Str Unit
  deleteObject : σ → Str → σ × Except Str Unit
  listAll : σ → Str → σ × Except Str ListResult

/-- The store together with the log of calls issued on it, oldest first. -/
structure World (σ : Type) where
  store : σ
  calls : List StoreCall

/-- Outcome of an awaited promise without a value. -/
abbrev Outcome := Except StoreError Unit

/-- Issue `uploadBytes(ref(storage, key), bytes)`. -/
def uploadBytes {σ : Type} (S : ObjectStore σ) (w : World σ) (key : Str) (bytes : List Nat) :
    World σ × Outcome :=
  ({ store := (S.uploadBytes w.store key bytes).1, calls := w.calls ++ [StoreCall.put key bytes] },
    match (S.uploadBytes w.store key bytes).2 with
    | .ok _ => .ok ()
    | .error m => .error { message := m })

/-- Issue `deleteObject(ref(storage, key))`. -/
def deleteObject {σ : Type} (S : ObjectStore σ) (w : World σ) (key : Str) : World σ × Outcome :=
  ({ store := (S.deleteObject w.store key).1, calls := w.calls ++ [StoreCall.delete key] },
    match (S.deleteObject w.store key).2 with
    | .ok _ => .ok ()
    | .error m => .error { message := m })

/-- Issue `listAll(ref(storage, path))`. -/
def listAll {σ : Type} (S : ObjectStore σ) (w : World σ) (path : Str) :
    World σ × Except StoreError ListResult :=
  ({ store := (S.listAll w.store path).1, calls := w.calls ++ [StoreCall.list path] },
    match (S.listAll w.store path).2 with
    | .ok result => .ok result
    | .error m => .error { message := m })

/-! ## Listing (lines 128-141) -/

/-- The sentinel leaf name `'.keep'`. -/
def keepName : Str := ".keep".toList

/-- Lines 128-141. -/
def listFilesAndFolders {σ : Type} (S : ObjectStore σ) (w : World σ) (s : State) (path : Str) :
    World σ × State :=
  match listAll S w path with
  | (w1, .ok result) =>
    let folders := (result.prefixes.map (fun p => p.name)).filter (fun n => n ≠ keepName)
    let files := (result.items.map (fun i => i.name)).filter (fun n => n ≠ keepName)
    (w1, { s with filesAndFolders := { files := files, folders := folders } })
  | (w1, .error error) =>
    (w1, { s with statusMessage := "Error listing files: ".toList ++ error.message,
                  filesAndFolders := { files := [], folders := [] } })

/-! ## File operations (lines 41-69) -/

/-- The double quote character used in the status messages. -/
def dquote : Char := Char.ofNat 34

/-- The entry `fileInputRef.current.files[0]`: a name and the bytes. -/
structure File where
  name : Str
  bytes : List Nat
  deriving DecidableEq, Repr

/-- Lines 41-56. The listing call is issued before the success message is set
and is not awaited, so its state updates land after that message. -/
def uploadFile {σ : Type} (S : ObjectStore σ) (w : World σ) (s : State) (file : Option File) :
    World σ × State :=
  match file with
  | none => (w, s)
  | some file =>
    let filePath := getFullPath s.currentPath file.name
    match uploadBytes S w filePath file.bytes with
    | (w1, .ok _) =>
      listFilesAndFolders S w1
        { s with statusMessage :=
            "File ".toList ++ dquote :: file.name ++ dquote :: " uploaded successfully.".toList }
        s.currentPath
    | (w1, .error error) =>
      (w1, { s with statusMessage := "Error uploading file: ".toList ++ error.message })

/-- Lines 57-69. -/
def deleteFile {σ : Type} (S : ObjectStore σ) (w : World σ) (s : State) (fileName : Str) :
    World σ × State :=
  let filePath := getFullPath s.currentPath fileName
  match deleteObject S w filePath with
  | (w1, .ok _) =>
    listFilesAndFolders S w1
      { s with statusMessage :=
          "File ".toList ++ dquote :: fileName ++ dquote :: " deleted successfully.".toList }
      s.currentPath
  | (w1, .error error) =>
    (w1, { s with statusMessage := "Error deleting file: ".toList ++ error.message })

/-! ## Folder creation (lines 70-92) -/

/-- White space and line terminators, the characters `String.prototype.trim`
strips. -/
def isWhiteSpace (c : Char) : Bool :=
  decide (c.toNat ∈ [9, 10, 11, 12, 13, 32, 160, 5760, 8232, 8233, 8239, 8287, 12288, 65279])
    || (decide (8192 ≤ c.toNat) && decide (c.toNat ≤ 8202))

/-- `String.prototype.trim`. -/
def trim (s : Str) : Str :=
  (s.dropWhile isWhiteSpace).rdropWhile isWhiteSpace

def msgEnterFolderName : Str := "Please enter a folder name.".toList

def msgMaxLevels : Str := "Maximum 6 nested folder levels allowed.".toList

/-- Lines 70-92. -/
def createFolder {σ : Type} (S : ObjectStore σ) (w : World σ) (s : State) : World σ × State :=
  let folderName := trim s.newFolderName
  if folderName = [] then
    (w, { s with statusMessage := msgEnterFolderName })
  else
    let folderPath := getFullPath s.currentPath folderName
    if isMaxNestedLevelReached folderPath then
      (w, { s with statusMessage := msgMaxLevels })
    else
      match uploadBytes S w (folderPath ++ "/.keep".toList) [] with
      | (w1, .ok _) =>
        listFilesAndFolders S w1
          { s with newFolderName := [],
                   statusMessage := "Folder ".toList ++ dquote :: folderName ++
                     dquote :: " created successfully.".toList }
          s.currentPath
      | (w1, .error error) =>
        (w1, { s with statusMessage := "Error creating folder: ".toList ++ error.message })

/-! ## Folder deletion (lines 93-113) -/

/-- A store call issued by `deleteFolderRecursive` that has not settled yet. -/
inductive InFlight where
  /-- Line 107: the call `listAll(folderRef)` for the folder `path`. -/
  | listing (path : Str)
  /-- Line 108: the call `deleteObject(itemRef)` for the object `key`. -/
  | deleting (key : Str)
  deriving DecidableEq, Repr

/-- The calls in flight are `c :: cs`; the one that settles next is the `i`-th
(the last one when `i` is past the end). Returns it with the calls left in
flight. -/
def pickCall : InFlight → List InFlight → Nat → InFlight × List InFlight
  | c, cs, 0 => (c, cs)
  | c, [], _ + 1 => (c, [])
  | c, d :: ds, i + 1 => ((pickCall d ds i).1, c :: (pickCall d ds i).2)

/-- One call in flight settles.

* A `deleteObject` takes effect on the store and is fulfilled or rejected.
* A `listAll` that is rejected rejects its `deleteFolderRecursive` (line 107).
* A `listAll` that is fulfilled lets its `deleteFolderRecursive` run lines
  108-111 at once: it issues `deleteObject` for every item and calls
  `deleteFolderRecursive` for every child, each of which issues its `listAll`
  before it first awaits. These calls are logged as issued and returned as
  newly in flight. -/
def settleCall {σ : Type} (S : ObjectStore σ) (w : World σ) :
    InFlight → World σ × Except StoreError (List InFlight)
  | .deleting key =>
    ({ store := (S.deleteObject w.store key).1, calls := w.calls },
      match (S.deleteObject w.store key).2 with
      | .ok _ => .ok []
      | .error m => .error { message := m })
  | .listing path =>
    match (S.listAll w.store path).2 with
    | .ok listResult =>
      ({ store := (S.listAll w.store path).1,
         calls := w.calls ++
           (listResult.items.map (fun itemRef => StoreCall.delete itemRef.fullPath) ++
            listResult.prefixes.map (fun prefixRef => StoreCall.list prefixRef.fullPath)) },
        .ok (listResult.items.map (fun itemRef => InFlight.deleting itemRef.fullPath) ++
             listResult.prefixes.map (fun prefixRef => InFlight.listing prefixRef.fullPath)))
    | .error m =>
      ({ store := (S.listAll w.store path).1, calls := w.calls }, .error { message := m })

/-- What the caller of `deleteFolderRecursive` sees when its promise settles:
the store and call log at that moment, the calls still in flight, and the
outcome. -/
structure DeleteRun (σ : Type) where
  world : World σ
  inFlight : List InFlight
  outcome : Outcome

/-- The promise tree of `deleteFolderRecursive` (line 112, `await
Promise.all(deletePromises)` at every level). Every rejection passes straight
up through the enclosing `Promise.all`s, so the outermost promise is rejected
the moment the first call fails, with that call's error, while the other calls
stay in flight; it is fulfilled when no call is left in flight. -/
def deleteLoop {σ : Type} (S : ObjectStore σ) (sched : Nat → Nat) :
    Nat → World σ → List InFlight → Option (DeleteRun σ)
  | _, w, [] => some { world := w, inFlight := [], outcome := .ok () }
  | 0, _, _ :: _ => none
  | fuel + 1, w, c :: cs =>
    match settleCall S w (pickCall c cs (sched fuel)).1 with
    | (w1, .error error) =>
      some { world := w1, inFlight := (pickCall c cs (sched fuel)).2, outcome := .error error }
    | (w1, .ok issued) => deleteLoop S sched fuel w1 ((pickCall c cs (sched fuel)).2 ++ issued)

/-- Lines 105-113: `deleteFolderRecursive(path)` issues `listAll` for `path`
and settles as `deleteLoop` says. -/
def deleteFolderRecursive {σ : Type} (S : ObjectStore σ) (sched : Nat → Nat) (fuel : Nat)
    (w : World σ) (path : Str) : Option (DeleteRun σ) :=
  deleteLoop S sched fuel { store := w.store, calls := w.calls ++ [StoreCall.list path] }
    [InFlight.listing path]

/-- The calls left in flight after a rejection are not cancelled: they go on
settling, and every fulfilled `listAll` among them still issues its deletes
and child listings. Their own failures reach no handler. Returns the world
once nothing is in flight. -/
def settleAll {σ : Type} (S : ObjectStore σ) (sched : Nat → Nat) :
    Nat → World σ → List InFlight → Option (World σ)
  | _, w, [] => some w
  | 0, _, _ :: _ => none
  | fuel + 1, w, c :: cs =>
    match settleCall S w (pickCall c cs (sched fuel)).1 with
    | (w1, .error _) => settleAll S sched fuel w1 (pickCall c cs (sched fuel)).2
    | (w1, .ok issued) => settleAll S sched fuel w1 ((pickCall c cs (sched fuel)).2 ++ issued)

/-- Lines 93-104. Returns the world when the handler has run, with the calls
still in flight then. -/
def deleteFolder {σ : Type} (S : ObjectStore σ) (sched : Nat → Nat) (fuel : Nat) (w : World σ)
    (s : State) (folderName : Str) : Option (World σ × List InFlight × State) :=
  let folderPathToDelete := getFullPath s.currentPath folderName
  match deleteFolderRecursive S sched fuel w folderPathToDelete with
  | none => none
  | some run =>
    match run.outcome with
    | .ok _ =>
      some ((listFilesAndFolders S run.world
          { s with statusMessage := "Folder ".toList ++ dquote :: folderName ++
              dquote :: " and its contents deleted successfully.".toList }
          s.currentPath).1,
        run.inFlight,
        (listFilesAndFolders S run.world
          { s with statusMessage := "Folder ".toList ++ dquote :: folderName ++
              dquote :: " and its contents deleted successfully.".toList }
          s.currentPath).2)
    | .error error =>
      some (run.world, run.inFlight,
        { s with statusMessage := "Error deleting folder: ".toList ++ error.message })

/-! ## A store given by a finite set of keys -/

/-- An object of the flat store. -/
structure StoredObject where
  key : Str
  bytes : List Nat
  deriving DecidableEq, Repr

/-- Modelled from the spec: the flat key space of section 6, a finite
collection of objects addressed by `/`-joined keys. -/
abbrev KeyStore := List StoredObject

/-- Which calls fail, and with what message; `none` lets the call succeed. -/
abbrev Faults := StoreCall → Option Str

/-- The key of everything below `path`: `path + '/'`, empty at the root. -/
def dirKey (path : Str) : Str :=
  if path ≠ [] then path ++ ['/'] else []

/-- The part of `key` below `path`, when the key lies below it. -/
def childRest (path key : Str) : Option Str :=
  if (dirKey path).isPrefixOf key then some (key.drop (dirKey path).length) else none

/-- Modelled from the spec: `listOneLevel(prefix)` of section 6, the grouped
listing derived from the keys. A key one segment below `path` is a direct
child object; a longer one contributes its first segment as a child prefix. -/
def keyStoreList (store : KeyStore) (path : Str) : ListResult :=
  let rests := store.filterMap (fun o => childRest path o.key)
  let itemNames := rests.filter (fun r => '/' ∉ r)
  let prefixNames :=
    ((rests.filter (fun r => '/' ∈ r)).map (fun r => r.takeWhile (fun c => c ≠ '/'))).dedup
  { prefixes := prefixNames.map (fun n => { fullPath := dirKey path ++ n, name := n }),
    items := itemNames.map (fun n => { fullPath := dirKey path ++ n, name := n }) }

/-- Modelled from the spec: the object store of section 6 over a finite key
set, with failures injected by `fl`. A failed call leaves the store as it
was. -/
def keyStore (fl : Faults) : ObjectStore KeyStore where
  uploadBytes store key bytes :=
    match fl (StoreCall.put key bytes) with
    | some m => (store, .error m)
    | none => ({ key := key, bytes := bytes } :: store.filter (fun o => o.key ≠ key), .ok ())
  deleteObject store key :=
    match fl (StoreCall.delete key) with
    | some m => (store, .error m)
    | none => (store.filter (fun o => o.key ≠ key), .ok ())
  listAll store path :=
    match fl (StoreCall.list path) with
    | some m => (store, .error m)
    | none => (store, .ok (keyStoreList store path))

/-- No call fails. -/
def noFaults : Faults := fun _ => none

/-- Exactly the delete calls on the keys in `F` fail, the one on `key` with the
message `msg key`. -/
def deleteFaults (F : List Str) (msg : Str → Str) : Faults
  | StoreCall.delete key => if key ∈ F then some (msg key) else none
  | _ => none

/-- The key lies strictly below `path`: it has `path + '/'` as a prefix. -/
def isBelow (path key : Str) : Bool :=
  (path ++ ['/']).isPrefixOf key

/-- The delete call on the object's key succeeds under `fl`. -/
def deleteOk (fl : Faults) (o : StoredObject) : Bool :=
  (fl (StoreCall.delete o.key)).isNone

/-- The store without the objects selected by `sel` whose delete succeeds. -/
def removeWhere (fl : Faults) (sel : StoredObject → Bool) (store : KeyStore) : KeyStore :=
  store.filter (fun o => !(sel o && deleteOk fl o))

/-- The key lies in the subtree of `path`: it has `path + '/'` as a prefix, or
`path` is the root. -/
def inSubtree (path key : Str) : Bool :=
  (dirKey path).isPrefixOf key

/-- The objects a call in flight is going to take care of: a delete its own
key, a listing the keys in the subtree of its folder. -/
def covers : InFlight → Str → Bool
  | .deleting k, key => decide (key = k)
  | .listing p, key => inSubtree p key

/-- A bound on the number of calls that settle below a listing, for a store of
at most `n` objects whose keys are at most `d` characters longer than the
listed path. -/
def workBound (n : Nat) : Nat → Nat
  | 0 => 1 + n
  | d + 1 => 1 + n + n * workBound n d

/-- The bound of each call in flight, for keys of at most `len` characters. -/
def callWeight (n len : Nat) : InFlight → Nat
  | .deleting _ => 1
  | .listing p => workBound n (len - p.length)

/-- Total bound of the calls in flight. -/
def totalWeight (n len : Nat) (pending : List InFlight) : Nat :=
  (pending.map (callWeight n len)).sum

/-- No key of the store starts with the delimiter. -/
def NoLeadingSep (st : KeyStore) : Prop :=
  ∀ o ∈ st, o.key.head? ≠ some '/'

/-- The state of a subtree delete of `p0` started on the store `st0`:
the store is `st0` without some objects of the subtree whose delete succeeds,
every call in flight concerns the subtree only, only the root can be the
empty path, and every delete in flight is for a key of `st0`. -/
structure DeleteInv (fl : Faults) (st0 : KeyStore) (p0 : Str) (store : KeyStore)
    (pending : List InFlight) : Prop where
  store_eq : ∃ sel : StoredObject → Bool, store = removeWhere fl sel st0 ∧
    ∀ o ∈ st0, sel o = true → inSubtree p0 o.key = true
  inside : ∀ c ∈ pending, ∀ key, covers c key = true → inSubtree p0 key = true
  progress : ∀ p, InFlight.listing p ∈ pending → p ≠ [] ∨ NoLeadingSep st0
  stored : ∀ k, InFlight.deleting k ∈ pending → ∃ o ∈ st0, o.key = k

/-- Every object of the subtree of `p0` selected by `need` is taken care of by
a call in flight. -/
def Covered (p0 : Str) (need : StoredObject → Bool) (store : KeyStore)
    (pending : List InFlight) : Prop :=
  ∀ o ∈ store, inSubtree p0 o.key = true → need o = true → ∃ c ∈ pending, covers c o.key = true

/-- The calls a settled call has newly put in flight. -/
def issuedCalls : Except StoreError (List InFlight) → List InFlight
  | .ok issued => issued
  | .error _ => []

/-! ## Facts about splitting and joining -/

theorem splitOnP_sep_free {α : Type} (p : α → Bool) (l : List α) :
    ∀ s ∈ l.splitOnP p, ∀ x ∈ s, p x = false := by
  induction l with
  | nil => intro s hs x hx; simp at hs; subst hs; simp at hx
  | cons a t ih =>
    intro s hs x hx
    rw [List.splitOnP_cons] at hs
    by_cases hpa : p a = true
    · simp only [hpa, if_true, List.mem_cons] at hs
      rcases hs with rfl | hs
      · simp at hx
      · exact ih s hs x hx
    · simp only [hpa] at hs
      cases hsp : t.splitOnP p with
      | nil => exact absurd hsp (List.splitOnP_ne_nil p t)
      | cons hd tl =>
        rw [hsp] at hs ih
        simp only [Bool.false_eq_true, if_false, List.modifyHead_cons, List.mem_cons] at hs
        rcases hs with rfl | hs
        · rcases List.mem_cons.1 hx with rfl | hx
          · simpa using hpa
          · exact ih hd (List.mem_cons_self _ _) x hx
        · exact ih s (List.mem_cons_of_mem _ hs) x hx

theorem splitOnP_append_sep {α : Type} (p : α → Bool) (l₁ l₂ : List α) (a : α) (ha : p a = true) :
    (l₁ ++ a :: l₂).splitOnP p = l₁.splitOnP p ++ l₂.splitOnP p := by
  induction l₁ with
  | nil => simp [List.splitOnP_cons, ha]
  | cons x xs ih =>
    rw [List.cons_append, List.splitOnP_cons, List.splitOnP_cons, ih]
    by_cases hpx : p x = true
    · simp [hpx]
    · simp only [hpx, Bool.false_eq_true, if_false]
      cases hsp : xs.splitOnP p with
      | nil => exact absurd hsp (List.splitOnP_ne_nil p xs)
      | cons hd tl => simp

theorem getFolderPathParts_valid (path : Str) :
    ∀ part ∈ getFolderPathParts path, ValidSegment part := by
  intro part hpart
  unfold getFolderPathParts at hpart
  rw [List.mem_filter] at hpart
  refine ⟨by simpa using hpart.2, ?_⟩
  intro hmem
  have := splitOnP_sep_free (· == '/') path part hpart.1 '/' hmem
  simp at this

theorem getFolderPathParts_append_sep (p q : Str) :
    getFolderPathParts (p ++ '/' :: q) = getFolderPathParts p ++ getFolderPathParts q := by
  unfold getFolderPathParts
  rw [List.splitOn, splitOnP_append_sep _ p q '/' (by simp), List.filter_append]
  rfl

theorem getFolderPathParts_nil : getFolderPathParts [] = [] := by decide

theorem getFolderPathParts_joinPath (segs : List Str) (h : ∀ s ∈ segs, ValidSegment s) :
    getFolderPathParts (joinPath segs) = segs := by
  by_cases hne : segs = []
  · subst hne; decide
  · unfold getFolderPathParts joinPath
    rw [List.splitOn_intercalate segs '/' (fun l hl => (h l hl).2) hne]
    exact List.filter_eq_self.2 (fun s hs => by simpa using (h s hs).1)

theorem joinPath_eq_nil {segs : List Str} (h : ∀ s ∈ segs, ValidSegment s) :
    joinPath segs = [] ↔ segs = [] := by
  constructor
  · intro hj
    have := getFolderPathParts_joinPath segs h
    rw [hj] at this
    rw [← this]; decide
  · rintro rfl; rfl

theorem joinPath_snoc (segs : List Str) (name : Str) (h : ∀ s ∈ segs, ValidSegment s) :
    joinPath (segs ++ [name]) = getFullPath (joinPath segs) name := by
  unfold getFullPath
  by_cases hne : segs = []
  · subst hne; simp [joinPath, List.intercalate]
  · have : joinPath segs ≠ [] := fun hj => hne ((joinPath_eq_nil h).1 hj)
    rw [if_pos this]
    clear this h
    induction segs with
    | nil => exact absurd rfl hne
    | cons s t ih =>
      cases t with
      | nil => simp [joinPath, List.intercalate]
      | cons u v =>
        have := ih (by simp)
        simp only [joinPath, List.intercalate, List.cons_append, List.intersperse,
          List.flatten, List.append_assoc] at this ⊢
        simp [this]

/-! ## Navigation -/

theorem depth_nil : depth [] = 0 := by decide

theorem depth_append_sep (p q : Str) : depth (p ++ '/' :: q) = depth p + depth q := by
  simp [depth, getFolderPathParts_append_sep]

theorem depth_joinPath (segs : List Str) (h : ∀ seg ∈ segs, ValidSegment seg) :
    depth (joinPath segs) = segs.length := by
  simp [depth, getFolderPathParts_joinPath segs h]

theorem depth_enterFolder (s : State) (folderName : Str) (h : depth s.currentPath ≤ 6) :
    depth (enterFolder s folderName).currentPath ≤ 6 := by
  unfold enterFolder
  by_cases hlen : (getFolderPathParts
      (if s.currentPath ≠ [] then s.currentPath ++ '/' :: folderName else folderName)).length > 6
  · simp only [if_pos hlen]
    exact h
  · simp only [if_neg hlen]
    exact Nat.le_of_not_lt hlen

theorem depth_goBack (s : State) : depth (goBack s).currentPath ≤ depth s.currentPath := by
  have hvalid : ∀ seg ∈ (getFolderPathParts s.currentPath).dropLast, ValidSegment seg :=
    fun seg hseg => getFolderPathParts_valid s.currentPath seg (List.mem_of_mem_dropLast hseg)
  show depth (joinPath (getFolderPathParts s.currentPath).dropLast) ≤ _
  rw [depth_joinPath _ hvalid, List.length_dropLast]
  exact Nat.sub_le _ _

theorem depth_foldl_navStep (actions : List NavAction) :
    ∀ s : State, depth s.currentPath ≤ 6 → depth (actions.foldl navStep s).currentPath ≤ 6 := by
  induction actions with
  | nil => intro s h; exact h
  | cons a rest ih =>
    intro s h
    rw [List.foldl_cons]
    apply ih
    cases a with
    | enter folderName => exact depth_enterFolder s folderName h
    | back => exact Nat.le_trans (depth_goBack s) h

theorem depth_of_validSegment (name : Str) (h : ValidSegment name) : depth name = 1 := by
  have hj : joinPath [name] = name := by simp [joinPath, List.intercalate]
  have := depth_joinPath [name] (fun seg hseg => by rw [List.mem_singleton.1 hseg]; exact h)
  rw [hj] at this
  exact this

theorem enterFolder_rejected_of_depth_pos (s : State) (folderName : Str)
    (hdepth : depth s.currentPath = 6) (hname : 0 < depth folderName) :
    enterFolder s folderName = { s with statusMessage := msgCannotNavigate } := by
  have hne : s.currentPath ≠ [] := by
    intro h
    rw [h, depth_nil] at hdepth
    exact absurd hdepth (by decide)
  have hlen : (getFolderPathParts (s.currentPath ++ '/' :: folderName)).length > 6 := by
    have := depth_append_sep s.currentPath folderName
    unfold depth at this hdepth hname
    omega
  unfold enterFolder
  simp only [if_pos hne, if_pos hlen]

/-- C1: for every current path whose depth (number of non-empty `/`-separated
segments) is exactly 6 and every folder name, a folder name being a single
segment (non-empty, without `/`) as the listing supplies it, `enterFolder` is
rejected with the depth-exceeded message, nothing else changes, and
`currentPath` afterwards equals `currentPath` before the call. -/
theorem enterFolder_rejected_at_depth_six (s : State) (folderName : Str)
    (hdepth : depth s.currentPath = 6) (hname : ValidSegment folderName) :
    enterFolder s folderName = { s with statusMessage := msgCannotNavigate } ∧
    (enterFolder s folderName).statusMessage = msgCannotNavigate ∧
    (enterFolder s folderName).currentPath = s.currentPath := by
  have henter := enterFolder_rejected_of_depth_pos s folderName hdepth
    (by rw [depth_of_validSegment folderName hname]; exact Nat.one_pos)
  exact ⟨henter, by rw [henter], by rw [henter]⟩

/-- C1, instance: at `a/b/c/d/e/f` the name `g` is rejected. -/
theorem enterFolder_rejected_at_depth_six_witness :
    (enterFolder { initialState with currentPath := "a/b/c/d/e/f".toList } "g".toList).statusMessage
        = msgCannotNavigate ∧
    (enterFolder { initialState with currentPath := "a/b/c/d/e/f".toList } "g".toList).currentPath
        = State.currentPath { initialState with currentPath := "a/b/c/d/e/f".toList } :=
  (enterFolder_rejected_at_depth_six
    { initialState with currentPath := "a/b/c/d/e/f".toList } "g".toList
    (by decide) (by decide)).2

/-- C2 (as stated, refuted): on the canonical depth-6 path `a/b/c/d/e/f` with the
valid segment `g`, `enterFolder` is rejected and the following `goBack` leaves
`currentPath = a/b/c/d/e`, not the original path. -/
theorem enter_then_back_at_depth_six_differs :
    depth "a/b/c/d/e/f".toList ≤ 6 ∧
    "a/b/c/d/e/f".toList = joinPath ["a".toList, "b".toList, "c".toList, "d".toList,
      "e".toList, "f".toList] ∧
    ValidSegment "g".toList ∧
    (goBack (enterFolder { initialState with currentPath := "a/b/c/d/e/f".toList }
      "g".toList)).currentPath = "a/b/c/d/e".toList ∧
    (goBack (enterFolder { initialState with currentPath := "a/b/c/d/e/f".toList }
      "g".toList)).currentPath ≠ "a/b/c/d/e/f".toList := by
  decide

/-- C2 (amended): for every canonical current path (valid segments joined by
`/`) of depth at most 5 and every folder name that is a single valid segment,
`enterFolder(name)` followed by `goBack()` leaves `currentPath` equal to the
original path. -/
theorem enter_then_back_restores (s : State) (segs : List Str) (folderName : Str)
    (hpath : s.currentPath = joinPath segs) (hsegs : ∀ seg ∈ segs, ValidSegment seg)
    (hdepth : depth s.currentPath ≤ 5) (hname : ValidSegment folderName) :
    (goBack (enterFolder s folderName)).currentPath = s.currentPath := by
  have hall : ∀ seg ∈ segs ++ [folderName], ValidSegment seg := by
    intro seg hseg
    rcases List.mem_append.1 hseg with h | h
    · exact hsegs seg h
    · rw [List.mem_singleton.1 h]; exact hname
  have hlen : segs.length ≤ 5 := by
    rw [hpath, depth_joinPath segs hsegs] at hdepth
    exact hdepth
  have hnew : (if s.currentPath ≠ [] then s.currentPath ++ '/' :: folderName else folderName)
      = joinPath (segs ++ [folderName]) := by
    rw [joinPath_snoc segs folderName hsegs, hpath]; rfl
  have henter : enterFolder s folderName
      = { s with currentPath := joinPath (segs ++ [folderName]) } := by
    unfold enterFolder
    simp only [hnew, getFolderPathParts_joinPath _ hall, List.length_append, List.length_singleton]
    rw [if_neg (by omega)]
  rw [henter]
  show joinPath (getFolderPathParts (joinPath (segs ++ [folderName]))).dropLast = s.currentPath
  rw [getFolderPathParts_joinPath _ hall, List.dropLast_concat, hpath]

/-- C2 (amended), instance: from `a/b`, entering `c` and going back gives `a/b`. -/
theorem enter_then_back_restores_witness :
    (goBack (enterFolder { initialState with currentPath := "a/b".toList } "c".toList)).currentPath
      = State.currentPath { initialState with currentPath := "a/b".toList } :=
  enter_then_back_restores { initialState with currentPath := "a/b".toList }
    ["a".toList, "b".toList] "c".toList (by decide) (by decide) (by decide) (by decide)

/-- C10: in every state reached from the initial state (`currentPath = ''`) by a
finite sequence of `enterFolder(name)` and `goBack()` calls with arbitrary name
strings, the depth of `currentPath` is at most 6. -/
theorem navigate_depth_le_six (actions : List NavAction) :
    depth (navigate actions).currentPath ≤ 6 :=
  depth_foldl_navStep actions initialState (by decide)

/-! ## Listing and folder creation over an arbitrary store -/

theorem trim_eq_nil_iff (name : Str) : trim name = [] ↔ ∀ c ∈ name, isWhiteSpace c = true := by
  unfold trim
  rw [List.rdropWhile_eq_nil_iff]
  constructor
  · intro h
    cases hd : name.dropWhile isWhiteSpace with
    | nil => exact List.dropWhile_eq_nil_iff.1 hd
    | cons a t =>
      have hnot := List.head_dropWhile_not isWhiteSpace name (by rw [hd]; simp)
      have ha := h (List.head (name.dropWhile isWhiteSpace) (by rw [hd]; simp))
        (List.head_mem _)
      rw [ha] at hnot
      exact absurd hnot (by decide)
  · intro h
    rw [List.dropWhile_eq_nil_iff.2 h]
    intro x hx
    exact absurd hx (List.not_mem_nil x)

theorem joinPath_concat (parts : List Str) (name : Str) (hne : parts ≠ []) :
    joinPath (parts ++ [name]) = joinPath parts ++ '/' :: name := by
  induction parts with
  | nil => exact absurd rfl hne
  | cons seg rest ih =>
    cases rest with
    | nil => simp [joinPath, List.intercalate]
    | cons u v =>
      have := ih (by simp)
      simp only [joinPath, List.intercalate, List.cons_append, List.intersperse,
        List.flatten, List.append_assoc] at this ⊢
      simp [this]

theorem sentinel_key_eq (segs : List Str) (name : Str) (h : ∀ seg ∈ segs, ValidSegment seg) :
    getFullPath (joinPath segs) name ++ "/.keep".toList = joinPath (segs ++ [name, keepName]) := by
  have hsplit : segs ++ [name, keepName] = (segs ++ [name]) ++ [keepName] := by simp
  rw [hsplit, joinPath_concat (segs ++ [name]) keepName (by simp), joinPath_snoc segs name h]
  rfl

theorem listFilesAndFolders_calls {σ : Type} (S : ObjectStore σ) (w : World σ) (s : State)
    (path : Str) : (listFilesAndFolders S w s path).1.calls = w.calls ++ [StoreCall.list path] := by
  unfold listFilesAndFolders listAll
  cases (S.listAll w.store path).2 <;> rfl

theorem not_mem_filter_ne (names : List Str) :
    keepName ∉ names.filter (fun n => decide (n ≠ keepName)) := by
  intro h
  have := (List.mem_filter.1 h).2
  simp at this

/-- C4: whatever one-level listing the store returns, the snapshot set by
`listFilesAndFolders` has `folders` equal to the names of the child prefixes
with every `.keep` removed and `files` equal to the names of the child items
with every `.keep` removed, order kept (and both empty when the listing
fails); so `.keep` is a member of neither list. -/
theorem listFilesAndFolders_snapshot {σ : Type} (S : ObjectStore σ) (w : World σ) (s : State)
    (path : Str) :
    (listFilesAndFolders S w s path).2.filesAndFolders =
      (match (S.listAll w.store path).2 with
       | .ok result =>
         { files := (result.items.map (fun i => i.name)).filter (fun n => n ≠ keepName),
           folders := (result.prefixes.map (fun p => p.name)).filter (fun n => n ≠ keepName) }
       | .error _ => { files := [], folders := [] }) ∧
    keepName ∉ (listFilesAndFolders S w s path).2.filesAndFolders.folders ∧
    keepName ∉ (listFilesAndFolders S w s path).2.filesAndFolders.files := by
  unfold listFilesAndFolders listAll
  cases (S.listAll w.store path).2 with
  | error m => exact ⟨rfl, List.not_mem_nil _, List.not_mem_nil _⟩
  | ok result => exact ⟨rfl, not_mem_filter_ne _, not_mem_filter_ne _⟩

/-- C8: when `createFolder` rejects for validation, that is when the entered
name is empty or whitespace-only or when the depth guard on the new folder
path fires, no store call is issued and the store, `currentPath`, the snapshot
of the listing and the entered name are as before; an empty or whitespace-only
name is rejected with the invalid-name message, the depth guard with the
maximum-levels message. -/
theorem createFolder_validation_rejects {σ : Type} (S : ObjectStore σ) (w : World σ) (s : State)
    (hrej : (∀ c ∈ s.newFolderName, isWhiteSpace c = true) ∨
      isMaxNestedLevelReached (getFullPath s.currentPath (trim s.newFolderName)) = true) :
    (createFolder S w s).1.calls = w.calls ∧
    (createFolder S w s).1.store = w.store ∧
    (createFolder S w s).2.currentPath = s.currentPath ∧
    (createFolder S w s).2.filesAndFolders = s.filesAndFolders ∧
    (createFolder S w s).2.newFolderName = s.newFolderName ∧
    ((∀ c ∈ s.newFolderName, isWhiteSpace c = true) →
      (createFolder S w s).2.statusMessage = msgEnterFolderName) ∧
    (¬ (∀ c ∈ s.newFolderName, isWhiteSpace c = true) →
      (createFolder S w s).2.statusMessage = msgMaxLevels) := by
  by_cases hblank : ∀ c ∈ s.newFolderName, isWhiteSpace c = true
  · have htrim := (trim_eq_nil_iff s.newFolderName).2 hblank
    have hres : createFolder S w s = (w, { s with statusMessage := msgEnterFolderName }) := by
      unfold createFolder
      simp only [htrim, if_true]
    rw [hres]
    exact ⟨rfl, rfl, rfl, rfl, rfl, fun _ => rfl, fun h => absurd hblank h⟩
  · have htrim : trim s.newFolderName ≠ [] := fun h => hblank ((trim_eq_nil_iff _).1 h)
    have hmax := hrej.resolve_left hblank
    have hres : createFolder S w s = (w, { s with statusMessage := msgMaxLevels }) := by
      unfold createFolder
      simp only [if_neg htrim, hmax, if_true]
    rw [hres]
    exact ⟨rfl, rfl, rfl, rfl, rfl, fun h => absurd h hblank, fun _ => rfl⟩

/-- C8, instance: a name of two blanks on the empty store. -/
theorem createFolder_validation_rejects_witness :
    (createFolder (keyStore noFaults) { store := [], calls := [] }
        { initialState with newFolderName := "  ".toList }).1.calls = [] ∧
    (createFolder (keyStore noFaults) { store := [], calls := [] }
        { initialState with newFolderName := "  ".toList }).2.statusMessage
      = msgEnterFolderName :=
  have h := createFolder_validation_rejects (keyStore noFaults) { store := [], calls := [] }
    { initialState with newFolderName := "  ".toList } (Or.inl (by decide))
  ⟨h.1, h.2.2.2.2.2.1 (by decide)⟩

/-- C3 (the code at the failing input): with `currentPath = a/b/c/d/e` and the
entered name `f`, the new folder path `a/b/c/d/e/f` has depth 6, which is not
above 6, yet `createFolder` rejects it with the maximum-levels message and
issues no store call; `enterFolder` accepts the same path. -/
theorem createFolder_rejects_folder_at_depth_six {σ : Type} (S : ObjectStore σ) (w : World σ) :
    depth (getFullPath "a/b/c/d/e".toList (trim "f".toList)) = 6 ∧
    createFolder S w { initialState with currentPath := "a/b/c/d/e".toList,
                                         newFolderName := "f".toList }
      = (w, { initialState with currentPath := "a/b/c/d/e".toList,
                                newFolderName := "f".toList,
                                statusMessage := msgMaxLevels }) ∧
    (enterFolder { initialState with currentPath := "a/b/c/d/e".toList } "f".toList).currentPath
      = "a/b/c/d/e/f".toList := by
  refine ⟨by decide, ?_, by decide⟩
  have htrim : trim "f".toList ≠ [] := by decide
  have hmax : isMaxNestedLevelReached (getFullPath "a/b/c/d/e".toList (trim "f".toList)) = true := by
    decide
  unfold createFolder
  simp only [if_neg htrim, hmax, if_true]

/-- C7 (as stated, refuted): at the root with the entered name ` a` (a leading
blank), `createFolder` succeeds and writes the zero-byte object at `a/.keep`,
not at the key ` a/.keep` obtained by joining the entered name. -/
theorem createFolder_key_uses_trimmed_name :
    (createFolder (keyStore noFaults) { store := [], calls := [] }
        { initialState with newFolderName := " a".toList }).1.calls
      = [StoreCall.put "a/.keep".toList [], StoreCall.list []] ∧
    (createFolder (keyStore noFaults) { store := [], calls := [] }
        { initialState with newFolderName := " a".toList }).1.store
      = [{ key := "a/.keep".toList, bytes := [] }] ∧
    joinPath (getFolderPathParts [] ++ [" a".toList, keepName]) = " a/.keep".toList ∧
    "a/.keep".toList ≠ joinPath (getFolderPathParts [] ++ [" a".toList, keepName]) := by
  decide

/-- C7 (amended): for every canonical parent path and every entered name on
which `createFolder` succeeds (the trimmed name is non-empty, the depth guard
passes and the write succeeds), the store calls it issues are exactly one
write, of a zero-byte object, at the key
`join(segments(parentPath) ++ [trim(name), '.keep'], '/')`, followed by the
listing of the parent path; it issues no other write and no delete. -/
theorem createFolder_writes_sentinel {σ : Type} (S : ObjectStore σ) (w : World σ) (s : State)
    (segs : List Str) (hpath : s.currentPath = joinPath segs)
    (hsegs : ∀ seg ∈ segs, ValidSegment seg)
    (hname : trim s.newFolderName ≠ [])
    (hdepth : isMaxNestedLevelReached (getFullPath s.currentPath (trim s.newFolderName)) = false)
    (hput : (S.uploadBytes w.store
      (joinPath (segs ++ [trim s.newFolderName, keepName])) []).2 = .ok ()) :
    (createFolder S w s).1.calls = w.calls ++
      [StoreCall.put (joinPath (segs ++ [trim s.newFolderName, keepName])) [],
       StoreCall.list s.currentPath] := by
  have hkey : getFullPath s.currentPath (trim s.newFolderName) ++ "/.keep".toList
      = joinPath (segs ++ [trim s.newFolderName, keepName]) := by
    rw [hpath]; exact sentinel_key_eq segs _ hsegs
  unfold createFolder
  simp only [if_neg hname, hdepth, hkey, uploadBytes, hput, Bool.false_eq_true, if_false]
  rw [listFilesAndFolders_calls]
  simp

/-- C7 (amended), instance: under `a` the entered name ` b ` writes `a/b/.keep`. -/
theorem createFolder_writes_sentinel_witness :
    (createFolder (keyStore noFaults) { store := [], calls := [] }
        { initialState with currentPath := "a".toList, newFolderName := " b ".toList }).1.calls
      = [] ++ [StoreCall.put (joinPath (["a".toList] ++ [trim " b ".toList, keepName])) [],
               StoreCall.list "a".toList] :=
  createFolder_writes_sentinel (keyStore noFaults) { store := [], calls := [] }
    { initialState with currentPath := "a".toList, newFolderName := " b ".toList }
    ["a".toList] (by decide) (by decide) (by decide) (by decide) rfl

theorem listFilesAndFolders_snapshot_state {σ : Type} (S : ObjectStore σ) (w : World σ)
    (s₁ s₂ : State) (path : Str) :
    (listFilesAndFolders S w s₁ path).2.filesAndFolders
      = (listFilesAndFolders S w s₂ path).2.filesAndFolders := by
  unfold listFilesAndFolders listAll
  cases (S.listAll w.store path).2 <;> rfl

/-- C9 (as stated, refuted): with `x` shown in the snapshot and the store
rejecting its delete, `deleteFile('x')` issues that delete call and nothing
after it: the last store call is not a listing of `currentPath`, and the
snapshot is left as it was. -/
theorem deleteFile_failure_issues_no_refresh :
    (deleteFile (keyStore (deleteFaults ["x".toList] (fun _ => "denied".toList)))
        { store := [{ key := "x".toList, bytes := [] }], calls := [] }
        { initialState with filesAndFolders := { files := ["x".toList], folders := [] } }
        "x".toList).1.calls = [StoreCall.delete "x".toList] ∧
    (deleteFile (keyStore (deleteFaults ["x".toList] (fun _ => "denied".toList)))
        { store := [{ key := "x".toList, bytes := [] }], calls := [] }
        { initialState with filesAndFolders := { files := ["x".toList], folders := [] } }
        "x".toList).1.calls.getLast? ≠ some (StoreCall.list initialState.currentPath) ∧
    (deleteFile (keyStore (deleteFaults ["x".toList] (fun _ => "denied".toList)))
        { store := [{ key := "x".toList, bytes := [] }], calls := [] }
        { initialState with filesAndFolders := { files := ["x".toList], folders := [] } }
        "x".toList).2.filesAndFolders = { files := ["x".toList], folders := [] } := by
  decide

/-- C9 (amended): each mutating operation issues its store call and then, only
when that call succeeded, one listing of `currentPath` as its last store call,
whose result becomes the snapshot; when the write or delete fails, no listing
is issued after it and the snapshot stays as it was. For `deleteFolder` the
store call is the whole recursive subtree delete, for `createFolder` nothing is
issued and the snapshot stays when validation rejects. -/
theorem refresh_only_after_success {σ : Type} (S : ObjectStore σ) (w : World σ) (s : State)
    (file : File) (fileName folderName : Str) (sched : Nat → Nat) (fuel : Nat) :
    ((uploadFile S w s (some file)).1.calls = w.calls ++
      (StoreCall.put (getFullPath s.currentPath file.name) file.bytes ::
        match (S.uploadBytes w.store (getFullPath s.currentPath file.name) file.bytes).2 with
        | .ok _ => [StoreCall.list s.currentPath]
        | .error _ => []) ∧
     (uploadFile S w s (some file)).2.filesAndFolders =
      match (S.uploadBytes w.store (getFullPath s.currentPath file.name) file.bytes).2 with
      | .ok _ => (listFilesAndFolders S
          (uploadBytes S w (getFullPath s.currentPath file.name) file.bytes).1 s
          s.currentPath).2.filesAndFolders
      | .error _ => s.filesAndFolders) ∧
    ((deleteFile S w s fileName).1.calls = w.calls ++
      (StoreCall.delete (getFullPath s.currentPath fileName) ::
        match (S.deleteObject w.store (getFullPath s.currentPath fileName)).2 with
        | .ok _ => [StoreCall.list s.currentPath]
        | .error _ => []) ∧
     (deleteFile S w s fileName).2.filesAndFolders =
      match (S.deleteObject w.store (getFullPath s.currentPath fileName)).2 with
      | .ok _ => (listFilesAndFolders S
          (deleteObject S w (getFullPath s.currentPath fileName)).1 s
          s.currentPath).2.filesAndFolders
      | .error _ => s.filesAndFolders) ∧
    ((createFolder S w s).1.calls = w.calls ++
      (if trim s.newFolderName = [] ∨
          isMaxNestedLevelReached (getFullPath s.currentPath (trim s.newFolderName)) = true
       then []
       else
        StoreCall.put (getFullPath s.currentPath (trim s.newFolderName) ++ "/.keep".toList) [] ::
          match (S.uploadBytes w.store
            (getFullPath s.currentPath (trim s.newFolderName) ++ "/.keep".toList) []).2 with
          | .ok _ => [StoreCall.list s.currentPath]
          | .error _ => []) ∧
     (createFolder S w s).2.filesAndFolders =
      (if trim s.newFolderName = [] ∨
          isMaxNestedLevelReached (getFullPath s.currentPath (trim s.newFolderName)) = true
       then s.filesAndFolders
       else
        match (S.uploadBytes w.store
          (getFullPath s.currentPath (trim s.newFolderName) ++ "/.keep".toList) []).2 with
        | .ok _ => (listFilesAndFolders S
            (uploadBytes S w
              (getFullPath s.currentPath (trim s.newFolderName) ++ "/.keep".toList) []).1 s
            s.currentPath).2.filesAndFolders
        | .error _ => s.filesAndFolders)) ∧
    (deleteFolder S sched fuel w s folderName).map (fun r => (r.1.calls, r.2.2.filesAndFolders)) =
      (deleteFolderRecursive S sched fuel w (getFullPath s.currentPath folderName)).map
        (fun run =>
          match run.outcome with
          | .ok _ => (run.world.calls ++ [StoreCall.list s.currentPath],
              (listFilesAndFolders S run.world s s.currentPath).2.filesAndFolders)
          | .error _ => (run.world.calls, s.filesAndFolders)) := by
  refine ⟨⟨?_, ?_⟩, ⟨?_, ?_⟩, ⟨?_, ?_⟩, ?_⟩
  · unfold uploadFile uploadBytes
    simp only
    cases (S.uploadBytes w.store (getFullPath s.currentPath file.name) file.bytes).2 with
    | ok u => simp [listFilesAndFolders_calls]
    | error m => simp
  · unfold uploadFile
    simp only
    cases h : (S.uploadBytes w.store (getFullPath s.currentPath file.name) file.bytes).2 with
    | ok u =>
      simp only [uploadBytes, h]
      exact listFilesAndFolders_snapshot_state S _ _ _ _
    | error m => simp only [uploadBytes, h]
  · unfold deleteFile deleteObject
    simp only
    cases (S.deleteObject w.store (getFullPath s.currentPath fileName)).2 with
    | ok u => simp [listFilesAndFolders_calls]
    | error m => simp
  · unfold deleteFile
    simp only
    cases h : (S.deleteObject w.store (getFullPath s.currentPath fileName)).2 with
    | ok u =>
      simp only [deleteObject, h]
      exact listFilesAndFolders_snapshot_state S _ _ _ _
    | error m => simp only [deleteObject, h]
  · unfold createFolder
    by_cases hname : trim s.newFolderName = []
    · simp [hname]
    · by_cases hmax : isMaxNestedLevelReached
          (getFullPath s.currentPath (trim s.newFolderName)) = true
      · simp [hname, hmax]
      · simp only [if_neg hname, hmax, or_self, if_false, uploadBytes]
        cases (S.uploadBytes w.store
          (getFullPath s.currentPath (trim s.newFolderName) ++ "/.keep".toList) []).2 with
        | ok u => simp [listFilesAndFolders_calls, if_neg hname]
        | error m => simp [if_neg hname]
  · unfold createFolder
    by_cases hname : trim s.newFolderName = []
    · simp [hname]
    · by_cases hmax : isMaxNestedLevelReached
          (getFullPath s.currentPath (trim s.newFolderName)) = true
      · simp [hname, hmax]
      · have hmax2 : isMaxNestedLevelReached
            (getFullPath s.currentPath (trim s.newFolderName)) = false := by
          simpa using hmax
        simp only [if_neg hname, hmax2, Bool.false_eq_true, if_false, or_false]
        cases h : (S.uploadBytes w.store
          (getFullPath s.currentPath (trim s.newFolderName) ++ "/.keep".toList) []).2 with
        | ok u =>
          simp only [uploadBytes, h]
          exact listFilesAndFolders_snapshot_state S _ _ _ _
        | error m => simp only [uploadBytes, h]
  · unfold deleteFolder
    simp only
    cases deleteFolderRecursive S sched fuel w (getFullPath s.currentPath folderName) with
    | none => rfl
    | some run =>
      cases h : run.outcome with
      | ok u =>
        simp only [Option.map_some', h, listFilesAndFolders_calls]
        rw [listFilesAndFolders_snapshot_state S run.world _ s]
      | error e => simp only [Option.map_some', h]

/-! ## Recursive delete over the key store -/

theorem isBelow_iff (path key : Str) :
    isBelow path key = true ↔ ∃ rest, key = path ++ '/' :: rest := by
  unfold isBelow
  rw [List.isPrefixOf_iff_prefix]
  constructor
  · rintro ⟨t, ht⟩
    exact ⟨t, by rw [← ht]; simp⟩
  · rintro ⟨rest, rfl⟩
    exact ⟨rest, by simp⟩

theorem dirKey_of_ne_nil {path : Str} (h : path ≠ []) : dirKey path = path ++ ['/'] := by
  unfold dirKey
  rw [if_pos h]

theorem childRest_some_key {parent key rest : Str} (h : childRest parent key = some rest) :
    key = dirKey parent ++ rest := by
  unfold childRest at h
  by_cases hp : (dirKey parent).isPrefixOf key = true
  · rw [if_pos hp] at h
    obtain ⟨t, ht⟩ := List.isPrefixOf_iff_prefix.1 hp
    rw [← Option.some.inj h, ← ht, List.drop_left]
  · rw [if_neg hp] at h
    exact absurd h (by simp)

theorem takeWhile_sep_split (rest : Str) (h : '/' ∈ rest) :
    ∃ tail, rest = rest.takeWhile (fun c => c ≠ '/') ++ '/' :: tail := by
  induction rest with
  | nil => exact absurd h (List.not_mem_nil _)
  | cons c t ih =>
    by_cases hc : c = '/'
    · subst hc
      exact ⟨t, by simp [List.takeWhile]⟩
    · have ht : '/' ∈ t := by
        rcases List.mem_cons.1 h with h1 | h1
        · exact absurd h1.symm hc
        · exact h1
      obtain ⟨tail, htail⟩ := ih ht
      refine ⟨tail, ?_⟩
      have hd : decide (c ≠ '/') = true := by simpa using hc
      rw [List.takeWhile_cons, if_pos hd, List.cons_append, ← htail]

theorem mem_items_keyStoreList (st : KeyStore) (path : Str) (ref : Reference) :
    ref ∈ (keyStoreList st path).items ↔
      ∃ o ∈ st, ∃ rest, childRest path o.key = some rest ∧ '/' ∉ rest ∧
        ref = { fullPath := dirKey path ++ rest, name := rest } := by
  unfold keyStoreList
  simp only [List.mem_map, List.mem_filter, List.mem_filterMap, decide_eq_true_eq]
  constructor
  · rintro ⟨rest, ⟨⟨o, ho, hc⟩, hsep⟩, rfl⟩
    exact ⟨o, ho, rest, hc, hsep, rfl⟩
  · rintro ⟨o, ho, rest, hc, hsep, rfl⟩
    exact ⟨rest, ⟨⟨o, ho, hc⟩, hsep⟩, rfl⟩

theorem mem_prefixes_keyStoreList (st : KeyStore) (path : Str) (ref : Reference) :
    ref ∈ (keyStoreList st path).prefixes ↔
      ∃ o ∈ st, ∃ rest, childRest path o.key = some rest ∧ '/' ∈ rest ∧
        ref = { fullPath := dirKey path ++ rest.takeWhile (fun c => c ≠ '/'),
                name := rest.takeWhile (fun c => c ≠ '/') } := by
  unfold keyStoreList
  simp only [List.mem_map, List.mem_filter, List.mem_filterMap, List.mem_dedup,
    decide_eq_true_eq]
  constructor
  · rintro ⟨n, ⟨rest, ⟨⟨o, ho, hc⟩, hsep⟩, rfl⟩, rfl⟩
    exact ⟨o, ho, rest, hc, hsep, rfl⟩
  · rintro ⟨o, ho, rest, hc, hsep, rfl⟩
    exact ⟨_, ⟨rest, ⟨⟨o, ho, hc⟩, hsep⟩, rfl⟩, rfl⟩

theorem removeWhere_removeWhere (fl : Faults) (sel₁ sel₂ : StoredObject → Bool) (st : KeyStore) :
    removeWhere fl sel₂ (removeWhere fl sel₁ st) = removeWhere fl (fun o => sel₁ o || sel₂ o) st := by
  unfold removeWhere
  rw [List.filter_filter]
  apply List.filter_congr
  intro o _
  show (!(sel₂ o && deleteOk fl o) && !(sel₁ o && deleteOk fl o))
    = !((sel₁ o || sel₂ o) && deleteOk fl o)
  cases sel₁ o <;> cases sel₂ o <;> cases deleteOk fl o <;> rfl

theorem removeWhere_congr (fl : Faults) {sel₁ sel₂ : StoredObject → Bool} {st : KeyStore}
    (h : ∀ o ∈ st, sel₁ o = sel₂ o) : removeWhere fl sel₁ st = removeWhere fl sel₂ st := by
  unfold removeWhere
  apply List.filter_congr
  intro o ho
  rw [h o ho]

theorem mem_removeWhere_of_mem {fl : Faults} {sel : StoredObject → Bool} {st : KeyStore}
    {o : StoredObject} (h : o ∈ removeWhere fl sel st) : o ∈ st :=
  List.mem_of_mem_filter h

theorem mem_removeWhere_of_fails {fl : Faults} (sel : StoredObject → Bool) {st : KeyStore}
    {o : StoredObject} (ho : o ∈ st) (hfail : deleteOk fl o = false) :
    o ∈ removeWhere fl sel st := by
  unfold removeWhere
  rw [List.mem_filter]
  exact ⟨ho, by simp [hfail]⟩

theorem listAll_keyStore (fl : Faults) (hlist : ∀ p, fl (StoreCall.list p) = none)
    (w : World KeyStore) (path : Str) :
    listAll (keyStore fl) w path =
      ({ store := w.store, calls := w.calls ++ [StoreCall.list path] },
        .ok (keyStoreList w.store path)) := by
  unfold listAll keyStore
  simp only [hlist]

theorem listFilesAndFolders_keyStore (fl : Faults) (hlist : ∀ p, fl (StoreCall.list p) = none)
    (w : World KeyStore) (s : State) (path : Str) :
    (listFilesAndFolders (keyStore fl) w s path).2.filesAndFolders =
      { files := ((keyStoreList w.store path).items.map (fun i => i.name)).filter
          (fun n => n ≠ keepName),
        folders := ((keyStoreList w.store path).prefixes.map (fun p => p.name)).filter
          (fun n => n ≠ keepName) } := by
  unfold listFilesAndFolders
  rw [listAll_keyStore fl hlist]

theorem joinPath_eq_dirKey_parent (segs : List Str) (hsegs : ∀ seg ∈ segs, ValidSegment seg)
    (hne : segs ≠ []) :
    joinPath segs = dirKey (joinPath segs.dropLast) ++ segs.getLast hne := by
  have hsplit : segs = segs.dropLast ++ [segs.getLast hne] :=
    (List.dropLast_append_getLast hne).symm
  have hvalid : ∀ seg ∈ segs.dropLast, ValidSegment seg :=
    fun seg hseg => hsegs seg (List.mem_of_mem_dropLast hseg)
  by_cases hd : segs.dropLast = []
  · have h1 : segs = [segs.getLast hne] := by
      rw [hd] at hsplit; simpa using hsplit
    rw [hd]
    conv_lhs => rw [h1]
    simp [joinPath, dirKey, List.intercalate]
  · have hj : joinPath segs.dropLast ≠ [] := fun h => hd ((joinPath_eq_nil hvalid).1 h)
    conv_lhs => rw [hsplit]
    rw [joinPath_concat _ _ hd, dirKey_of_ne_nil hj]
    simp

theorem inSubtree_iff (path key : Str) :
    inSubtree path key = true ↔ ∃ rest, key = dirKey path ++ rest := by
  unfold inSubtree
  rw [List.isPrefixOf_iff_prefix]
  constructor
  · rintro ⟨t, ht⟩
    exact ⟨t, ht.symm⟩
  · rintro ⟨rest, rfl⟩
    exact ⟨rest, rfl⟩

theorem inSubtree_eq_isBelow {path : Str} (h : path ≠ []) (key : Str) :
    inSubtree path key = isBelow path key := by
  unfold inSubtree isBelow
  rw [dirKey_of_ne_nil h]

theorem childRest_eq_some_iff (path key rest : Str) :
    childRest path key = some rest ↔ key = dirKey path ++ rest := by
  constructor
  · exact childRest_some_key
  · rintro rfl
    unfold childRest
    have hp : (dirKey path).isPrefixOf (dirKey path ++ rest) = true :=
      List.isPrefixOf_iff_prefix.2 ⟨rest, rfl⟩
    rw [if_pos hp, List.drop_left]

theorem dirKey_append_sep (path rest : Str) (h : path ≠ []) :
    dirKey path ++ rest = path ++ '/' :: rest := by
  rw [dirKey_of_ne_nil h]; simp

theorem item_is_stored_key {st : KeyStore} {path : Str} {ref : Reference}
    (href : ref ∈ (keyStoreList st path).items) :
    ∃ o ∈ st, o.key = ref.fullPath ∧ inSubtree path o.key = true := by
  obtain ⟨o, ho, rest, hc, -, rfl⟩ := (mem_items_keyStoreList st path ref).1 href
  have hkey := childRest_some_key hc
  exact ⟨o, ho, hkey, (inSubtree_iff path o.key).2 ⟨rest, hkey⟩⟩

theorem child_has_key {st : KeyStore} {path : Str} {ref : Reference}
    (href : ref ∈ (keyStoreList st path).prefixes) :
    ∃ o ∈ st, ∃ n tail, ref.fullPath = dirKey path ++ n ∧ o.key = dirKey path ++ n ++ '/' :: tail := by
  obtain ⟨o, ho, rest, hc, hsep, rfl⟩ := (mem_prefixes_keyStoreList st path ref).1 href
  obtain ⟨tail, htail⟩ := takeWhile_sep_split rest hsep
  refine ⟨o, ho, rest.takeWhile (fun c => c ≠ '/'), tail, rfl, ?_⟩
  rw [childRest_some_key hc, List.append_assoc, ← htail]

theorem inSubtree_child {path n key : Str} (h : inSubtree (dirKey path ++ n) key = true) :
    inSubtree path key = true := by
  by_cases hc : dirKey path ++ n = []
  · have hd : dirKey path = [] := (List.append_eq_nil.1 hc).1
    exact (inSubtree_iff _ _).2 ⟨key, by rw [hd]; rfl⟩
  · obtain ⟨rest, hrest⟩ := (inSubtree_iff _ _).1 h
    rw [dirKey_of_ne_nil hc] at hrest
    exact (inSubtree_iff _ _).2 ⟨n ++ '/' :: rest, by rw [hrest]; simp⟩

theorem inSubtree_iff_listed {st : KeyStore} {path : Str} {o : StoredObject} (ho : o ∈ st) :
    inSubtree path o.key = true ↔
      (∃ ref ∈ (keyStoreList st path).items, o.key = ref.fullPath) ∨
      (∃ ref ∈ (keyStoreList st path).prefixes, inSubtree ref.fullPath o.key = true) := by
  constructor
  · intro hb
    obtain ⟨rest, hkey⟩ := (inSubtree_iff _ _).1 hb
    have hc := (childRest_eq_some_iff path o.key rest).2 hkey
    by_cases hsep : '/' ∈ rest
    · right
      obtain ⟨tail, htail⟩ := takeWhile_sep_split rest hsep
      refine ⟨_, (mem_prefixes_keyStoreList st path _).2 ⟨o, ho, rest, hc, hsep, rfl⟩, ?_⟩
      show inSubtree (dirKey path ++ rest.takeWhile (fun c => c ≠ '/')) o.key = true
      by_cases hchild : dirKey path ++ rest.takeWhile (fun c => c ≠ '/') = []
      · exact (inSubtree_iff _ _).2 ⟨o.key, by rw [hchild]; rfl⟩
      · refine (inSubtree_iff _ _).2 ⟨tail, ?_⟩
        rw [dirKey_of_ne_nil hchild, hkey]
        conv_lhs => rw [htail]
        simp
    · left
      exact ⟨_, (mem_items_keyStoreList st path _).2 ⟨o, ho, rest, hc, hsep, rfl⟩, hkey⟩
  · rintro (⟨ref, href, hkey⟩ | ⟨ref, href, hb⟩)
    · obtain ⟨o2, -, hk2, hb2⟩ := item_is_stored_key href
      rw [hkey, ← hk2]; exact hb2
    · obtain ⟨o2, -, n, tail, hn, -⟩ := child_has_key href
      rw [hn] at hb
      exact inSubtree_child hb

theorem pickCall_perm (c : InFlight) (cs : List InFlight) (i : Nat) :
    List.Perm ((pickCall c cs i).1 :: (pickCall c cs i).2) (c :: cs) := by
  induction i generalizing c cs with
  | zero => cases cs <;> exact List.Perm.refl _
  | succ i ih =>
    cases cs with
    | nil => exact List.Perm.refl _
    | cons d ds =>
      show List.Perm ((pickCall d ds i).1 :: c :: (pickCall d ds i).2) (c :: d :: ds)
      exact (List.Perm.swap _ _ _).trans (List.Perm.cons c (ih d ds))

theorem workBound_ge (n d : Nat) : 1 + n ≤ workBound n d := by
  cases d with
  | zero => exact Nat.le_refl _
  | succ d => unfold workBound; omega

theorem workBound_mono (n : Nat) {d e : Nat} (h : d ≤ e) : workBound n d ≤ workBound n e := by
  induction e generalizing d with
  | zero =>
    have : d = 0 := Nat.le_zero.1 h
    rw [this]
  | succ e ih =>
    cases d with
    | zero =>
      have := workBound_ge n (e + 1)
      exact this
    | succ d =>
      have := ih (Nat.le_of_succ_le_succ h)
      show 1 + n + n * workBound n d ≤ 1 + n + n * workBound n e
      exact Nat.add_le_add_left (Nat.mul_le_mul_left n this) _

theorem callWeight_pos (n len : Nat) (c : InFlight) : 1 ≤ callWeight n len c := by
  cases c with
  | deleting k => exact Nat.le_refl _
  | listing p =>
    have := workBound_ge n (len - p.length)
    show 1 ≤ workBound n (len - p.length)
    omega

theorem totalWeight_perm (n len : Nat) {l₁ l₂ : List InFlight} (h : List.Perm l₁ l₂) :
    totalWeight n len l₁ = totalWeight n len l₂ := by
  unfold totalWeight
  exact (h.map _).sum_eq

theorem totalWeight_cons (n len : Nat) (c : InFlight) (cs : List InFlight) :
    totalWeight n len (c :: cs) = callWeight n len c + totalWeight n len cs := by
  simp [totalWeight]

theorem totalWeight_append (n len : Nat) (l₁ l₂ : List InFlight) :
    totalWeight n len (l₁ ++ l₂) = totalWeight n len l₁ + totalWeight n len l₂ := by
  simp [totalWeight]

theorem sum_map_le_length_mul {α : Type} (l : List α) (f : α → Nat) (b : Nat)
    (h : ∀ x ∈ l, f x ≤ b) : (l.map f).sum ≤ l.length * b := by
  induction l with
  | nil => simp
  | cons x xs ih =>
    have h1 := h x (List.mem_cons_self _ _)
    have h2 := ih (fun y hy => h y (List.mem_cons_of_mem _ hy))
    simp only [List.map_cons, List.sum_cons, List.length_cons]
    rw [Nat.add_mul, Nat.one_mul]
    omega

theorem items_length_le (st : KeyStore) (path : Str) :
    (keyStoreList st path).items.length ≤ st.length := by
  unfold keyStoreList
  simp only [List.length_map]
  exact Nat.le_trans (List.length_filter_le _ _) (List.length_filterMap_le _ _)

theorem prefixes_length_le (st : KeyStore) (path : Str) :
    (keyStoreList st path).prefixes.length ≤ st.length := by
  unfold keyStoreList
  simp only [List.length_map]
  refine Nat.le_trans (List.Sublist.length_le (List.dedup_sublist _)) ?_
  rw [List.length_map]
  exact Nat.le_trans (List.length_filter_le _ _) (List.length_filterMap_le _ _)

theorem removeWhere_length_le (fl : Faults) (sel : StoredObject → Bool) (st : KeyStore) :
    (removeWhere fl sel st).length ≤ st.length :=
  List.length_filter_le _ _

theorem dirKey_length_le (path : Str) : path.length ≤ (dirKey path).length := by
  unfold dirKey
  by_cases h : path = []
  · simp [h]
  · rw [if_pos h]; simp

theorem child_length {st st0 : KeyStore} {path : Str} {ref : Reference}
    (hsub : ∀ o ∈ st, o ∈ st0) (hprog : path ≠ [] ∨ NoLeadingSep st0)
    (href : ref ∈ (keyStoreList st path).prefixes) :
    path.length + 1 ≤ ref.fullPath.length ∧
      ∃ o ∈ st, ref.fullPath.length + 1 ≤ o.key.length := by
  obtain ⟨o, ho, n, tail, hn, hkey⟩ := child_has_key href
  refine ⟨?_, o, ho, ?_⟩
  · rw [hn, List.length_append]
    by_cases hp : path = []
    · subst hp
      have hno : NoLeadingSep st0 := hprog.resolve_left (fun h => h rfl)
      have hd : dirKey [] = [] := rfl
      rw [hd] at hkey ⊢
      have hne : n ≠ [] := by
        intro h
        rw [h] at hkey
        have := hno o (hsub o ho)
        rw [hkey] at this
        simp at this
      have := List.length_pos.2 hne
      simp only [List.length_nil]
      omega
    · rw [dirKey_of_ne_nil hp]
      simp
  · rw [hkey, hn]
    simp only [List.length_append, List.length_cons]
    omega

theorem settleCall_deleting (fl : Faults) (w : World KeyStore) (k : Str) :
    settleCall (keyStore fl) w (InFlight.deleting k) =
      ({ store := removeWhere fl (fun o => decide (o.key = k)) w.store, calls := w.calls },
        match fl (StoreCall.delete k) with
        | none => .ok []
        | some m => .error { message := m }) := by
  unfold settleCall keyStore removeWhere deleteOk
  simp only
  cases hfl : fl (StoreCall.delete k) with
  | none =>
    simp only
    congr 2
    apply List.filter_congr
    intro o _
    by_cases hk : o.key = k
    · simp [hk, hfl]
    · simp [hk]
  | some m =>
    simp only
    congr 2
    symm
    apply List.filter_eq_self.2
    intro o _
    by_cases hk : o.key = k
    · simp [hk, hfl]
    · simp [hk]

theorem settleCall_listing (fl : Faults) (hlist : ∀ p, fl (StoreCall.list p) = none)
    (w : World KeyStore) (p : Str) :
    settleCall (keyStore fl) w (InFlight.listing p) =
      ({ store := w.store,
         calls := w.calls ++
           ((keyStoreList w.store p).items.map (fun itemRef => StoreCall.delete itemRef.fullPath) ++
            (keyStoreList w.store p).prefixes.map
              (fun prefixRef => StoreCall.list prefixRef.fullPath)) },
        .ok ((keyStoreList w.store p).items.map (fun itemRef => InFlight.deleting itemRef.fullPath) ++
             (keyStoreList w.store p).prefixes.map
               (fun prefixRef => InFlight.listing prefixRef.fullPath))) := by
  unfold settleCall keyStore
  simp only [hlist]

theorem settleCall_error (fl : Faults) (hlist : ∀ p, fl (StoreCall.list p) = none)
    (w : World KeyStore) (c : InFlight) (e : StoreError)
    (h : (settleCall (keyStore fl) w c).2 = .error e) :
    ∃ k, c = InFlight.deleting k ∧ fl (StoreCall.delete k) = some e.message := by
  cases c with
  | listing p =>
    rw [settleCall_listing fl hlist] at h
    exact absurd h (by simp)
  | deleting k =>
    rw [settleCall_deleting] at h
    refine ⟨k, rfl, ?_⟩
    cases hfl : fl (StoreCall.delete k) with
    | none => rw [hfl] at h; exact absurd h (by simp)
    | some m =>
      rw [hfl] at h
      have : ({ message := m } : StoreError) = e := Except.error.inj h
      rw [← this]

theorem settleCall_ok_deleting (fl : Faults) (w : World KeyStore) (k : Str)
    (issued : List InFlight) (h : (settleCall (keyStore fl) w (InFlight.deleting k)).2 = .ok issued) :
    fl (StoreCall.delete k) = none := by
  rw [settleCall_deleting] at h
  cases hfl : fl (StoreCall.delete k) with
  | none => rfl
  | some m => rw [hfl] at h; exact absurd h (by simp)

theorem mem_issued_listing (fl : Faults) (hlist : ∀ p, fl (StoreCall.list p) = none)
    (w : World KeyStore) (p : Str) (c : InFlight) :
    c ∈ issuedCalls (settleCall (keyStore fl) w (InFlight.listing p)).2 ↔
      (∃ ref ∈ (keyStoreList w.store p).items, c = InFlight.deleting ref.fullPath) ∨
      (∃ ref ∈ (keyStoreList w.store p).prefixes, c = InFlight.listing ref.fullPath) := by
  rw [settleCall_listing fl hlist]
  simp only [issuedCalls, List.mem_append, List.mem_map]
  constructor
  · rintro (⟨ref, href, rfl⟩ | ⟨ref, href, rfl⟩)
    · exact Or.inl ⟨ref, href, rfl⟩
    · exact Or.inr ⟨ref, href, rfl⟩
  · rintro (⟨ref, href, rfl⟩ | ⟨ref, href, rfl⟩)
    · exact Or.inl ⟨ref, href, rfl⟩
    · exact Or.inr ⟨ref, href, rfl⟩

theorem issued_deleting_nil (fl : Faults) (w : World KeyStore) (k : Str) :
    issuedCalls (settleCall (keyStore fl) w (InFlight.deleting k)).2 = [] := by
  rw [settleCall_deleting]
  cases fl (StoreCall.delete k) <;> rfl

theorem settleCall_store (fl : Faults) (hlist : ∀ p, fl (StoreCall.list p) = none)
    (w : World KeyStore) (c : InFlight) :
    (settleCall (keyStore fl) w c).1.store =
      removeWhere fl (fun o => match c with
        | InFlight.deleting k => decide (o.key = k)
        | InFlight.listing _ => false) w.store := by
  cases c with
  | listing p =>
    rw [settleCall_listing fl hlist]
    unfold removeWhere
    exact (List.filter_eq_self.2 (fun o _ => by simp)).symm
  | deleting k => rw [settleCall_deleting]

theorem deleteInv_sub {fl : Faults} {st0 st : KeyStore} {p0 : Str} {pending : List InFlight}
    (h : DeleteInv fl st0 p0 st pending) : ∀ o ∈ st, o ∈ st0 := by
  obtain ⟨sel, hsel, -⟩ := h.store_eq
  intro o ho
  rw [hsel] at ho
  exact mem_removeWhere_of_mem ho

theorem deleteInv_perm {fl : Faults} {st0 st : KeyStore} {p0 : Str} {l₁ l₂ : List InFlight}
    (h : DeleteInv fl st0 p0 st l₁) (hp : List.Perm l₁ l₂) : DeleteInv fl st0 p0 st l₂ where
  store_eq := h.store_eq
  inside := fun c hc => h.inside c (hp.mem_iff.2 hc)
  progress := fun p hmem => h.progress p (hp.mem_iff.2 hmem)
  stored := fun k hk => h.stored k (hp.mem_iff.2 hk)

theorem covered_perm {p0 : Str} {need : StoredObject → Bool} {st : KeyStore}
    {l₁ l₂ : List InFlight} (h : Covered p0 need st l₁) (hp : List.Perm l₁ l₂) :
    Covered p0 need st l₂ := by
  intro o ho hs hn
  obtain ⟨c, hc, hcov⟩ := h o ho hs hn
  exact ⟨c, hp.mem_iff.1 hc, hcov⟩

theorem step_inv (fl : Faults) (hlist : ∀ p, fl (StoreCall.list p) = none)
    {st0 : KeyStore} {p0 : Str} (w : World KeyStore) (c : InFlight) (others : List InFlight)
    (hinv : DeleteInv fl st0 p0 w.store (c :: others)) :
    DeleteInv fl st0 p0 (settleCall (keyStore fl) w c).1.store
      (others ++ issuedCalls (settleCall (keyStore fl) w c).2) := by
  have hsub := deleteInv_sub hinv
  cases c with
  | deleting k =>
    rw [issued_deleting_nil, List.append_nil, settleCall_deleting]
    obtain ⟨sel, hsel, hselsub⟩ := hinv.store_eq
    refine ⟨⟨fun o => sel o || decide (o.key = k), ?_, ?_⟩, ?_, ?_, ?_⟩
    · show removeWhere fl _ w.store = _
      rw [hsel, removeWhere_removeWhere]
    · intro o ho hsel2
      rcases Bool.or_eq_true _ _ ▸ hsel2 with h | h
      · exact hselsub o ho h
      · have hk : o.key = k := by simpa using h
        rw [hk]
        exact hinv.inside _ (List.mem_cons_self _ _) k (by simp [covers])
    · exact fun c2 hc2 => hinv.inside c2 (List.mem_cons_of_mem _ hc2)
    · exact fun p hp => hinv.progress p (List.mem_cons_of_mem _ hp)
    · exact fun k2 hk2 => hinv.stored k2 (List.mem_cons_of_mem _ hk2)
  | listing p =>
    have hstore : (settleCall (keyStore fl) w (InFlight.listing p)).1.store = w.store := by
      rw [settleCall_listing fl hlist]
    have hin_p : ∀ key, inSubtree p key = true → inSubtree p0 key = true :=
      fun key hkey => hinv.inside _ (List.mem_cons_self _ _) key hkey
    have hprog_p := hinv.progress p (List.mem_cons_self _ _)
    rw [hstore]
    refine ⟨hinv.store_eq, ?_, ?_, ?_⟩
    · intro c2 hc2 key hcov
      rcases List.mem_append.1 hc2 with h | h
      · exact hinv.inside c2 (List.mem_cons_of_mem _ h) key hcov
      · rcases (mem_issued_listing fl hlist w p c2).1 h with ⟨ref, href, rfl⟩ | ⟨ref, href, rfl⟩
        · obtain ⟨o, -, hk, hb⟩ := item_is_stored_key href
          have hkey : key = ref.fullPath := by simpa [covers] using hcov
          rw [hkey, ← hk]
          exact hin_p _ hb
        · obtain ⟨o, -, n, tail, hn, -⟩ := child_has_key href
          have hcov2 : inSubtree ref.fullPath key = true := hcov
          rw [hn] at hcov2
          exact hin_p _ (inSubtree_child hcov2)
    · intro q hq
      rcases List.mem_append.1 hq with h | h
      · exact hinv.progress q (List.mem_cons_of_mem _ h)
      · rcases (mem_issued_listing fl hlist w p _).1 h with ⟨ref, -, hc⟩ | ⟨ref, href, hc⟩
        · exact absurd hc (by simp)
        · have hq2 : q = ref.fullPath := by injection hc
          have := (child_length hsub hprog_p href).1
          left
          intro hnil
          rw [hq2] at hnil
          rw [hnil] at this
          simp at this
    · intro k hk
      rcases List.mem_append.1 hk with h | h
      · exact hinv.stored k (List.mem_cons_of_mem _ h)
      · rcases (mem_issued_listing fl hlist w p _).1 h with ⟨ref, href, hc⟩ | ⟨ref, -, hc⟩
        · have hk2 : k = ref.fullPath := by injection hc
          obtain ⟨o, ho, hkey, -⟩ := item_is_stored_key href
          exact ⟨o, hsub o ho, by rw [hkey, hk2]⟩
        · exact absurd hc (by simp)

theorem step_covered (fl : Faults) (hlist : ∀ p, fl (StoreCall.list p) = none)
    {p0 : Str} (need : StoredObject → Bool) (w : World KeyStore) (c : InFlight)
    (others : List InFlight)
    (hneed : ∀ k, c = InFlight.deleting k →
      ∀ o : StoredObject, o.key = k → need o = true → deleteOk fl o = true)
    (hcov : Covered p0 need w.store (c :: others)) :
    Covered p0 need (settleCall (keyStore fl) w c).1.store
      (others ++ issuedCalls (settleCall (keyStore fl) w c).2) := by
  intro o ho hs hn
  have ho' : o ∈ w.store := by
    rw [settleCall_store fl hlist] at ho
    exact mem_removeWhere_of_mem ho
  obtain ⟨c2, hc2, hcov2⟩ := hcov o ho' hs hn
  rcases List.mem_cons.1 hc2 with h | h
  · subst h
    cases c2 with
    | deleting k =>
      have hk : o.key = k := by simpa [covers] using hcov2
      have hok := hneed k rfl o hk hn
      rw [settleCall_deleting] at ho
      have hkeep := (List.mem_filter.1 ho).2
      simp [hk, hok] at hkeep
    | listing p =>
      have hb : inSubtree p o.key = true := hcov2
      rcases (inSubtree_iff_listed ho').1 hb with ⟨ref, href, hkey⟩ | ⟨ref, href, hb2⟩
      · exact ⟨InFlight.deleting ref.fullPath,
          List.mem_append_right _ ((mem_issued_listing fl hlist w p _).2 (Or.inl ⟨ref, href, rfl⟩)),
          by simp [covers, hkey]⟩
      · exact ⟨InFlight.listing ref.fullPath,
          List.mem_append_right _ ((mem_issued_listing fl hlist w p _).2 (Or.inr ⟨ref, href, rfl⟩)),
          hb2⟩
  · exact ⟨c2, List.mem_append_left _ h, hcov2⟩

theorem step_weight (fl : Faults) (hlist : ∀ p, fl (StoreCall.list p) = none)
    {st0 : KeyStore} {p0 : Str} (n len : Nat) (hn : st0.length ≤ n)
    (hlen : ∀ o ∈ st0, o.key.length ≤ len)
    (w : World KeyStore) (c : InFlight) (others : List InFlight)
    (hinv : DeleteInv fl st0 p0 w.store (c :: others)) :
    totalWeight n len (issuedCalls (settleCall (keyStore fl) w c).2) + 1 ≤ callWeight n len c := by
  cases c with
  | deleting k =>
    rw [issued_deleting_nil]
    exact Nat.le_refl _
  | listing p =>
    have hsub := deleteInv_sub hinv
    have hprog_p := hinv.progress p (List.mem_cons_self _ _)
    have hstlen : w.store.length ≤ n := by
      obtain ⟨sel, hsel, -⟩ := hinv.store_eq
      rw [hsel]
      exact Nat.le_trans (removeWhere_length_le _ _ _) hn
    have hitems := Nat.le_trans (items_length_le w.store p) hstlen
    have hprefs := Nat.le_trans (prefixes_length_le w.store p) hstlen
    rw [settleCall_listing fl hlist]
    simp only [issuedCalls, totalWeight, List.map_append, List.map_map, List.sum_append]
    have h1 : (List.map (callWeight n len ∘ fun itemRef => InFlight.deleting itemRef.fullPath)
        (keyStoreList w.store p).items).sum ≤ (keyStoreList w.store p).items.length * 1 :=
      sum_map_le_length_mul _ _ 1 (fun x _ => Nat.le_refl _)
    show _ ≤ workBound n (len - p.length)
    cases hd : len - p.length with
    | zero =>
      have hnil : (keyStoreList w.store p).prefixes = [] := by
        apply List.eq_nil_iff_forall_not_mem.2
        intro ref href
        obtain ⟨h2, o, ho, h3⟩ := child_length hsub hprog_p href
        have := hlen o (hsub o ho)
        omega
      rw [hnil]
      simp only [List.map_nil, List.sum_nil]
      show _ ≤ 1 + n
      omega
    | succ d =>
      have h2 : (List.map (callWeight n len ∘ fun prefixRef => InFlight.listing prefixRef.fullPath)
          (keyStoreList w.store p).prefixes).sum
          ≤ (keyStoreList w.store p).prefixes.length * workBound n d := by
        apply sum_map_le_length_mul
        intro ref href
        obtain ⟨h3, -⟩ := child_length hsub hprog_p href
        show workBound n (len - ref.fullPath.length) ≤ workBound n d
        exact workBound_mono n (by omega)
      have h3 : (keyStoreList w.store p).prefixes.length * workBound n d ≤ n * workBound n d :=
        Nat.mul_le_mul_right _ hprefs
      show _ ≤ 1 + n + n * workBound n d
      omega

theorem covered_weaken {p0 : Str} {st : KeyStore} {pending : List InFlight}
    (need : StoredObject → Bool) (h : Covered p0 (fun _ => true) st pending) :
    Covered p0 need st pending :=
  fun o ho hs _ => h o ho hs rfl

theorem deleteLoop_keyStore (fl : Faults) (hlist : ∀ p, fl (StoreCall.list p) = none)
    (st0 : KeyStore) (p0 : Str) (n len : Nat) (hn : st0.length ≤ n)
    (hlen : ∀ o ∈ st0, o.key.length ≤ len) (sched : Nat → Nat) :
    ∀ (fuel : Nat) (w : World KeyStore) (pending : List InFlight),
      DeleteInv fl st0 p0 w.store pending →
      Covered p0 (fun _ => true) w.store pending →
      totalWeight n len pending ≤ fuel →
      ∃ run, deleteLoop (keyStore fl) sched fuel w pending = some run ∧
        DeleteInv fl st0 p0 run.world.store run.inFlight ∧
        Covered p0 (deleteOk fl) run.world.store run.inFlight ∧
        totalWeight n len run.inFlight ≤ totalWeight n len pending ∧
        (run.outcome = .ok () →
          run.inFlight = [] ∧ ∀ o ∈ run.world.store, inSubtree p0 o.key = false) ∧
        (∀ e, run.outcome = .error e →
          ∃ o ∈ st0, inSubtree p0 o.key = true ∧ fl (StoreCall.delete o.key) = some e.message) := by
  intro fuel
  induction fuel with
  | zero =>
    intro w pending hinv hcov hw
    cases pending with
    | nil =>
      refine ⟨{ world := w, inFlight := [], outcome := .ok () }, rfl, hinv,
        covered_weaken _ hcov, Nat.le_refl _, ?_, ?_⟩
      · intro _
        refine ⟨rfl, fun o ho => ?_⟩
        cases hs : inSubtree p0 o.key with
        | false => rfl
        | true =>
          obtain ⟨c, hc, -⟩ := hcov o ho hs rfl
          exact absurd hc (List.not_mem_nil _)
      · intro e he
        exact absurd he (by simp)
    | cons c cs =>
      rw [totalWeight_cons] at hw
      have := callWeight_pos n len c
      omega
  | succ fuel ih =>
    intro w pending hinv hcov hw
    cases pending with
    | nil =>
      refine ⟨{ world := w, inFlight := [], outcome := .ok () }, rfl, hinv,
        covered_weaken _ hcov, Nat.le_refl _, ?_, ?_⟩
      · intro _
        refine ⟨rfl, fun o ho => ?_⟩
        cases hs : inSubtree p0 o.key with
        | false => rfl
        | true =>
          obtain ⟨c, hc, -⟩ := hcov o ho hs rfl
          exact absurd hc (List.not_mem_nil _)
      · intro e he
        exact absurd he (by simp)
    | cons c cs =>
      have hperm := pickCall_perm c cs (sched fuel)
      have hinv2 := deleteInv_perm hinv hperm.symm
      have hcov2 := covered_perm hcov hperm.symm
      have hstep := step_inv fl hlist w _ _ hinv2
      have hwt := step_weight fl hlist n len hn hlen w _ _ hinv2
      have htw : totalWeight n len (c :: cs)
          = callWeight n len (pickCall c cs (sched fuel)).1
            + totalWeight n len (pickCall c cs (sched fuel)).2 := by
        rw [← totalWeight_cons]
        exact (totalWeight_perm n len hperm).symm
      cases hsc : settleCall (keyStore fl) w (pickCall c cs (sched fuel)).1 with
      | mk w1 r =>
        have h1 : (settleCall (keyStore fl) w (pickCall c cs (sched fuel)).1).1 = w1 := by
          rw [hsc]
        have h2 : (settleCall (keyStore fl) w (pickCall c cs (sched fuel)).1).2 = r := by
          rw [hsc]
        rw [h1, h2] at hstep
        rw [h2] at hwt
        cases r with
        | error e =>
          simp only [issuedCalls, List.append_nil] at hstep
          have hcov3 := step_covered fl hlist (deleteOk fl) w _ _
            (fun _ _ _ _ hok => hok) (covered_weaken (deleteOk fl) hcov2)
          rw [h1, h2] at hcov3
          simp only [issuedCalls, List.append_nil] at hcov3
          refine ⟨{ world := w1, inFlight := (pickCall c cs (sched fuel)).2, outcome := .error e },
            ?_, hstep, hcov3, ?_, ?_, ?_⟩
          · simp only [deleteLoop, hsc]
          · show totalWeight n len (pickCall c cs (sched fuel)).2 ≤ _
            rw [htw]
            exact Nat.le_add_left _ _
          · intro hok
            exact absurd hok (by simp)
          · intro e2 he2
            have he : e = e2 := Except.error.inj he2
            subst he
            obtain ⟨k, hk, hfl⟩ := settleCall_error fl hlist w _ e h2
            have hmem : InFlight.deleting k ∈ (pickCall c cs (sched fuel)).1 ::
                (pickCall c cs (sched fuel)).2 := by
              rw [hk]; exact List.mem_cons_self _ _
            obtain ⟨o, ho, hkey⟩ := hinv2.stored k hmem
            refine ⟨o, ho, ?_, by rw [hkey]; exact hfl⟩
            rw [hkey]
            exact hinv2.inside _ hmem k (by simp [covers])
        | ok issued =>
          simp only [issuedCalls] at hstep hwt
          have hcov3 := step_covered fl hlist (fun _ => true) w _ _
            (fun k hk o hkey _ => by
              have := settleCall_ok_deleting fl w k issued (by rw [← hk]; exact h2)
              unfold deleteOk
              rw [hkey, this]; rfl) hcov2
          rw [h1, h2] at hcov3
          simp only [issuedCalls] at hcov3
          have hfuel : totalWeight n len ((pickCall c cs (sched fuel)).2 ++ issued) ≤ fuel := by
            rw [totalWeight_append]
            rw [htw] at hw
            omega
          obtain ⟨run, hrun, hi, hc, hwr, hok, herr⟩ := ih w1 _ hstep hcov3 hfuel
          refine ⟨run, ?_, hi, hc, ?_, hok, herr⟩
          · simp only [deleteLoop, hsc]
            exact hrun
          · rw [totalWeight_append] at hwr
            rw [htw]
            omega

theorem settleAll_keyStore (fl : Faults) (hlist : ∀ p, fl (StoreCall.list p) = none)
    (st0 : KeyStore) (p0 : Str) (n len : Nat) (hn : st0.length ≤ n)
    (hlen : ∀ o ∈ st0, o.key.length ≤ len) (sched : Nat → Nat) :
    ∀ (fuel : Nat) (w : World KeyStore) (pending : List InFlight),
      DeleteInv fl st0 p0 w.store pending →
      Covered p0 (deleteOk fl) w.store pending →
      totalWeight n len pending ≤ fuel →
      ∃ w2, settleAll (keyStore fl) sched fuel w pending = some w2 ∧
        DeleteInv fl st0 p0 w2.store [] ∧ Covered p0 (deleteOk fl) w2.store [] := by
  intro fuel
  induction fuel with
  | zero =>
    intro w pending hinv hcov hw
    cases pending with
    | nil => exact ⟨w, rfl, hinv, hcov⟩
    | cons c cs =>
      rw [totalWeight_cons] at hw
      have := callWeight_pos n len c
      omega
  | succ fuel ih =>
    intro w pending hinv hcov hw
    cases pending with
    | nil => exact ⟨w, rfl, hinv, hcov⟩
    | cons c cs =>
      have hperm := pickCall_perm c cs (sched fuel)
      have hinv2 := deleteInv_perm hinv hperm.symm
      have hcov2 := covered_perm hcov hperm.symm
      have hstep := step_inv fl hlist w _ _ hinv2
      have hwt := step_weight fl hlist n len hn hlen w _ _ hinv2
      have hcov3 := step_covered fl hlist (deleteOk fl) w _ _ (fun _ _ _ _ hok => hok) hcov2
      have htw : totalWeight n len (c :: cs)
          = callWeight n len (pickCall c cs (sched fuel)).1
            + totalWeight n len (pickCall c cs (sched fuel)).2 := by
        rw [← totalWeight_cons]
        exact (totalWeight_perm n len hperm).symm
      cases hsc : settleCall (keyStore fl) w (pickCall c cs (sched fuel)).1 with
      | mk w1 r =>
        have h1 : (settleCall (keyStore fl) w (pickCall c cs (sched fuel)).1).1 = w1 := by
          rw [hsc]
        have h2 : (settleCall (keyStore fl) w (pickCall c cs (sched fuel)).1).2 = r := by
          rw [hsc]
        rw [h1, h2] at hstep hcov3
        rw [h2] at hwt
        cases r with
        | error e =>
          simp only [issuedCalls, List.append_nil] at hstep hcov3
          have hfuel : totalWeight n len (pickCall c cs (sched fuel)).2 ≤ fuel := by
            rw [htw] at hw
            have := callWeight_pos n len (pickCall c cs (sched fuel)).1
            omega
          obtain ⟨w2, hrun, hi, hc⟩ := ih w1 _ hstep hcov3 hfuel
          exact ⟨w2, by simp only [settleAll, hsc]; exact hrun, hi, hc⟩
        | ok issued =>
          simp only [issuedCalls] at hstep hcov3 hwt
          have hfuel : totalWeight n len ((pickCall c cs (sched fuel)).2 ++ issued) ≤ fuel := by
            rw [totalWeight_append]
            rw [htw] at hw
            omega
          obtain ⟨w2, hrun, hi, hc⟩ := ih w1 _ hstep hcov3 hfuel
          exact ⟨w2, by simp only [settleAll, hsc]; exact hrun, hi, hc⟩

theorem settled_store (fl : Faults) {st0 st : KeyStore} {p0 : Str}
    (hinv : DeleteInv fl st0 p0 st [])
    (hcov : Covered p0 (deleteOk fl) st []) :
    st = removeWhere fl (fun o => inSubtree p0 o.key) st0 := by
  obtain ⟨sel, hsel, hselsub⟩ := hinv.store_eq
  rw [hsel]
  unfold removeWhere
  apply List.filter_congr
  intro o ho
  show (!(sel o && deleteOk fl o)) = !(inSubtree p0 o.key && deleteOk fl o)
  cases hok : deleteOk fl o with
  | false => simp
  | true =>
    cases hs : inSubtree p0 o.key with
    | true =>
      cases hselo : sel o with
      | true => rfl
      | false =>
        have hmem : o ∈ st := by
          rw [hsel]
          unfold removeWhere
          rw [List.mem_filter]
          exact ⟨ho, by simp [hselo]⟩
        obtain ⟨c, hc, -⟩ := hcov o hmem hs hok
        exact absurd hc (List.not_mem_nil _)
    | false =>
      cases hselo : sel o with
      | true =>
        have := hselsub o ho hselo
        rw [hs] at this
        exact absurd this (by decide)
      | false => rfl

theorem initial_inv (fl : Faults) (store : KeyStore) (path : Str)
    (hroot : path ≠ [] ∨ NoLeadingSep store) :
    DeleteInv fl store path store [InFlight.listing path] ∧
    Covered path (fun _ => true) store [InFlight.listing path] := by
  refine ⟨⟨⟨fun _ => false, ?_, ?_⟩, ?_, ?_, ?_⟩, ?_⟩
  · unfold removeWhere
    exact (List.filter_eq_self.2 (fun o _ => by simp)).symm
  · intro o _ h
    exact absurd h Bool.false_ne_true
  · intro c hc key hcov
    rw [List.mem_singleton.1 hc] at hcov
    exact hcov
  · intro p hp
    have : p = path := by
      have := List.mem_singleton.1 hp
      injection this
    rw [this]
    exact hroot
  · intro k hk
    have := List.mem_singleton.1 hk
    exact absurd this (by simp)
  · intro o _ hs _
    exact ⟨InFlight.listing path, List.mem_singleton.2 rfl, hs⟩

theorem keyStoreList_empty {st : KeyStore} {path : Str}
    (h : ∀ o ∈ st, inSubtree path o.key = false) :
    keyStoreList st path = { prefixes := [], items := [] } := by
  have hrests : st.filterMap (fun o => childRest path o.key) = [] := by
    apply List.eq_nil_iff_forall_not_mem.2
    intro rest hrest
    obtain ⟨o, ho, hc⟩ := List.mem_filterMap.1 hrest
    have hb := (inSubtree_iff path o.key).2 ⟨rest, childRest_some_key hc⟩
    rw [h o ho] at hb
    exact absurd hb (by decide)
  unfold keyStoreList
  simp only [hrests]
  rfl

theorem totalWeight_initial (n depthBound : Nat) (path : Str) :
    totalWeight n (path.length + depthBound) [InFlight.listing path] = workBound n depthBound := by
  simp [totalWeight, callWeight]

/-- C5: over the key-set store, for every non-root canonical path, every order
in which the calls in flight settle, and fuel enough for the number of calls,
if no list call fails and no delete of a key below the path fails,
`deleteFolderRecursive(path)` completes and is fulfilled with nothing left in
flight; at that moment no key with `path + '/'` as a prefix is in the store
(all other objects are kept), listing `path` gives the empty snapshot, and
listing the parent of `path` does not show the last segment of `path` among
its folders. -/
theorem deleteFolderRecursive_empties_subtree (fl : Faults) (store : KeyStore)
    (calls : List StoreCall) (s : State) (segs : List Str) (sched : Nat → Nat)
    (fuel depthBound : Nat)
    (hsegs : ∀ seg ∈ segs, ValidSegment seg) (hne : segs ≠ [])
    (hlist : ∀ p, fl (StoreCall.list p) = none)
    (hdel : ∀ o ∈ store, isBelow (joinPath segs) o.key = true →
      fl (StoreCall.delete o.key) = none)
    (hkeys : ∀ o ∈ store, o.key.length ≤ (joinPath segs).length + depthBound)
    (hfuel : workBound store.length depthBound ≤ fuel) :
    ∃ run, deleteFolderRecursive (keyStore fl) sched fuel { store := store, calls := calls }
        (joinPath segs) = some run ∧
      run.outcome = .ok () ∧ run.inFlight = [] ∧
      run.world.store = store.filter (fun o => !isBelow (joinPath segs) o.key) ∧
      (∀ o ∈ run.world.store, isBelow (joinPath segs) o.key = false) ∧
      (listFilesAndFolders (keyStore fl) run.world s (joinPath segs)).2.filesAndFolders
        = { files := [], folders := [] } ∧
      segs.getLast hne ∉
        (listFilesAndFolders (keyStore fl) run.world s
          (joinPath segs.dropLast)).2.filesAndFolders.folders := by
  have hpath : joinPath segs ≠ [] := fun h => hne ((joinPath_eq_nil hsegs).1 h)
  obtain ⟨hinv0, hcov0⟩ := initial_inv fl store (joinPath segs) (Or.inl hpath)
  obtain ⟨run, hrun, hinv, hcov, -, hok, herr⟩ :=
    deleteLoop_keyStore fl hlist store (joinPath segs) store.length
      ((joinPath segs).length + depthBound) (Nat.le_refl _) hkeys sched fuel
      { store := store, calls := calls ++ [StoreCall.list (joinPath segs)] }
      [InFlight.listing (joinPath segs)] hinv0 hcov0
      (by rw [totalWeight_initial]; exact hfuel)
  have hout : run.outcome = .ok () := by
    cases hr : run.outcome with
    | ok u => rfl
    | error e =>
      obtain ⟨o, ho, hb, hfail⟩ := herr e hr
      rw [inSubtree_eq_isBelow hpath] at hb
      rw [hdel o ho hb] at hfail
      exact absurd hfail (by simp)
  obtain ⟨hnil, hgone0⟩ := hok hout
  have hgone : ∀ o ∈ run.world.store, isBelow (joinPath segs) o.key = false := by
    intro o ho
    rw [← inSubtree_eq_isBelow hpath]
    exact hgone0 o ho
  have hstore : run.world.store = store.filter (fun o => !isBelow (joinPath segs) o.key) := by
    rw [hnil] at hinv hcov
    rw [settled_store fl hinv hcov]
    unfold removeWhere
    apply List.filter_congr
    intro o ho
    show (!(inSubtree (joinPath segs) o.key && deleteOk fl o)) = !isBelow (joinPath segs) o.key
    rw [inSubtree_eq_isBelow hpath]
    cases hb : isBelow (joinPath segs) o.key with
    | false => rfl
    | true =>
      have hd : deleteOk fl o = true := by
        unfold deleteOk; rw [hdel o ho hb]; rfl
      rw [hd]; rfl
  refine ⟨run, hrun, hout, hnil, hstore, hgone, ?_, ?_⟩
  · rw [listFilesAndFolders_keyStore fl hlist, keyStoreList_empty hgone0]
    rfl
  · rw [listFilesAndFolders_keyStore fl hlist]
    intro hmem
    have hmem2 := (List.mem_filter.1 hmem).1
    obtain ⟨ref, href, hname⟩ := List.mem_map.1 hmem2
    obtain ⟨o, ho, rest, hc, hsep, rfl⟩ := (mem_prefixes_keyStoreList _ _ ref).1 href
    have hname2 : rest.takeWhile (fun c => c ≠ '/') = segs.getLast hne := hname
    obtain ⟨tail, htail⟩ := takeWhile_sep_split rest hsep
    have hkey := childRest_some_key hc
    have hb : isBelow (joinPath segs) o.key = true := by
      refine (isBelow_iff _ _).2 ⟨tail, ?_⟩
      rw [hkey, joinPath_eq_dirKey_parent segs hsegs hne, ← hname2]
      conv_lhs => rw [htail]
      simp
    rw [hgone o ho] at hb
    exact absurd hb (by decide)

/-- C5, instance: deleting `a` from a store holding `a/.keep`, `a/b/.keep`,
`a/b/y.txt` and `c`, the first call in flight settling first. -/
theorem deleteFolderRecursive_empties_subtree_witness :
    ∃ run, deleteFolderRecursive (keyStore noFaults) (fun _ => 0) (workBound 4 8)
        { store := [{ key := "a/.keep".toList, bytes := [] },
                    { key := "a/b/.keep".toList, bytes := [] },
                    { key := "a/b/y.txt".toList, bytes := [1, 2] },
                    { key := "c".toList, bytes := [] }],
          calls := [] }
        (joinPath ["a".toList]) = some run ∧
      run.outcome = .ok () ∧ run.inFlight = [] ∧
      run.world.store = List.filter (fun o => !isBelow (joinPath ["a".toList]) o.key)
        [{ key := "a/.keep".toList, bytes := [] },
         { key := "a/b/.keep".toList, bytes := [] },
         { key := "a/b/y.txt".toList, bytes := [1, 2] },
         { key := "c".toList, bytes := [] }] ∧
      (∀ o ∈ run.world.store, isBelow (joinPath ["a".toList]) o.key = false) ∧
      (listFilesAndFolders (keyStore noFaults) run.world initialState
        (joinPath ["a".toList])).2.filesAndFolders = { files := [], folders := [] } ∧
      ["a".toList].getLast (by decide) ∉
        (listFilesAndFolders (keyStore noFaults) run.world initialState
          (joinPath ["a".toList].dropLast)).2.filesAndFolders.folders :=
  deleteFolderRecursive_empties_subtree noFaults _ [] initialState ["a".toList] (fun _ => 0)
    (workBound 4 8) 8 (by decide) (by decide) (fun _ => rfl) (fun _ _ _ => rfl) (by decide)
    (Nat.le_refl _)

/-- C6 (as stated, refuted): with the objects `a/x`, `a/y`, `a/z` and the
deletes of `a/x` and `a/y` failing, `deleteFolderRecursive('a')` is rejected as
soon as one delete fails, with the error of that delete alone: when `a/x`
settles first the message is that of `a/x`, when `a/y` settles first that of
`a/y`; the other failed key is not reported. At that moment the delete of
`a/z`, a key outside `F`, is still in flight and `a/z` is still stored. -/
theorem deleteFolderRecursive_reports_one_failure :
    (deleteFolderRecursive
        (keyStore (deleteFaults ["a/x".toList, "a/y".toList]
          (fun k => "cannot delete ".toList ++ k)))
        (fun _ => 0) 10
        { store := [{ key := "a/x".toList, bytes := [] }, { key := "a/y".toList, bytes := [] },
                    { key := "a/z".toList, bytes := [] }],
          calls := [] }
        "a".toList).map
      (fun run => (run.world.store.map (fun o => o.key), run.inFlight,
        match run.outcome with
        | .ok _ => none
        | .error e => some e.message))
      = some (["a/x".toList, "a/y".toList, "a/z".toList],
          [InFlight.deleting "a/y".toList, InFlight.deleting "a/z".toList],
          some "cannot delete a/x".toList) ∧
    (deleteFolderRecursive
        (keyStore (deleteFaults ["a/x".toList, "a/y".toList]
          (fun k => "cannot delete ".toList ++ k)))
        (fun _ => 1) 10
        { store := [{ key := "a/x".toList, bytes := [] }, { key := "a/y".toList, bytes := [] },
                    { key := "a/z".toList, bytes := [] }],
          calls := [] }
        "a".toList).map
      (fun run => (run.world.store.map (fun o => o.key), run.inFlight,
        match run.outcome with
        | .ok _ => none
        | .error e => some e.message))
      = some (["a/x".toList, "a/y".toList, "a/z".toList],
          [InFlight.deleting "a/x".toList, InFlight.deleting "a/z".toList],
          some "cannot delete a/y".toList) := by
  decide

theorem deleteOk_deleteFaults (F : List Str) (msg : Str → Str) (o : StoredObject) :
    deleteOk (deleteFaults F msg) o = !decide (o.key ∈ F) := by
  unfold deleteOk deleteFaults
  by_cases hk : o.key ∈ F
  · simp [hk]
  · simp [hk]

/-- C6 (amended): over the key-set store, for every subtree (at the root, of a
store no key of which starts with `/`), every order in which the calls in
flight settle, enough fuel, and every non-empty set `F` of keys in the subtree
whose delete call fails while every other call succeeds,
`deleteFolderRecursive` fails, and it fails with the error of one failed
delete: its message is the message of the delete of a single key of `F`.
Nothing is rolled back: at the moment of the failure the store holds only
objects it held before, among them every key of `F` and every object outside
the subtree. The calls still in flight are not cancelled; once they and the
calls they issue have all settled, every key of the subtree outside `F` is
absent from the store and the keys in `F` and the objects outside the subtree
remain. -/
theorem deleteFolderRecursive_partial_failure (store : KeyStore) (calls : List StoreCall)
    (path : Str) (F : List Str) (msg : Str → Str) (sched : Nat → Nat) (fuel depthBound : Nat)
    (hroot : path ≠ [] ∨ NoLeadingSep store)
    (hF : F ≠ [])
    (hsub : ∀ k ∈ F, inSubtree path k = true ∧ ∃ o ∈ store, o.key = k)
    (hkeys : ∀ o ∈ store, o.key.length ≤ path.length + depthBound)
    (hfuel : workBound store.length depthBound ≤ fuel) :
    ∃ run e, deleteFolderRecursive (keyStore (deleteFaults F msg)) sched fuel
        { store := store, calls := calls } path = some run ∧
      run.outcome = .error e ∧
      (∃ k ∈ F, e.message = msg k) ∧
      (∀ o ∈ run.world.store, o ∈ store) ∧
      (∀ o ∈ store, (inSubtree path o.key = false ∨ o.key ∈ F) → o ∈ run.world.store) ∧
      (∀ (sched2 : Nat → Nat) (fuel2 : Nat), workBound store.length depthBound ≤ fuel2 →
        ∃ w2, settleAll (keyStore (deleteFaults F msg)) sched2 fuel2 run.world run.inFlight
            = some w2 ∧
          w2.store = store.filter (fun o => !inSubtree path o.key || decide (o.key ∈ F))) := by
  have hlist : ∀ p, deleteFaults F msg (StoreCall.list p) = none := fun _ => rfl
  obtain ⟨hinv0, hcov0⟩ := initial_inv (deleteFaults F msg) store path hroot
  obtain ⟨run, hrun, hinv, hcov, hwt, hok, herr⟩ :=
    deleteLoop_keyStore (deleteFaults F msg) hlist store path store.length
      (path.length + depthBound) (Nat.le_refl _) hkeys sched fuel
      { store := store, calls := calls ++ [StoreCall.list path] }
      [InFlight.listing path] hinv0 hcov0
      (by rw [totalWeight_initial]; exact hfuel)
  obtain ⟨sel, hsel, hselsub⟩ := hinv.store_eq
  have hkeep : ∀ o ∈ store, (inSubtree path o.key = false ∨ o.key ∈ F) →
      o ∈ run.world.store := by
    intro o ho hcase
    rw [hsel]
    unfold removeWhere
    rw [List.mem_filter]
    refine ⟨ho, ?_⟩
    rcases hcase with h | h
    · cases hselo : sel o with
      | false => rfl
      | true =>
        have := hselsub o ho hselo
        rw [h] at this
        exact absurd this (by decide)
    · rw [deleteOk_deleteFaults]
      simp [h]
  cases hr : run.outcome with
  | ok u =>
    obtain ⟨k, hk⟩ := List.exists_mem_of_ne_nil F hF
    obtain ⟨hb, o, ho, hkey⟩ := hsub k hk
    have hmem := hkeep o ho (Or.inr (by rw [hkey]; exact hk))
    have := (hok hr).2 o hmem
    rw [hkey, hb] at this
    exact absurd this (by decide)
  | error e =>
    refine ⟨run, e, hrun, hr, ?_, deleteInv_sub hinv, hkeep, ?_⟩
    · obtain ⟨o, -, -, hfail⟩ := herr e hr
      have hfail2 : (if o.key ∈ F then some (msg o.key) else none) = some e.message := hfail
      by_cases hk : o.key ∈ F
      · rw [if_pos hk] at hfail2
        exact ⟨o.key, hk, (Option.some.inj hfail2).symm⟩
      · rw [if_neg hk] at hfail2
        exact absurd hfail2 (by simp)
    · intro sched2 fuel2 hfuel2
      have hw2 : totalWeight store.length (path.length + depthBound) run.inFlight ≤ fuel2 := by
        rw [totalWeight_initial] at hwt
        omega
      obtain ⟨w2, hsettle, hinv2, hcov2⟩ :=
        settleAll_keyStore (deleteFaults F msg) hlist store path store.length
          (path.length + depthBound) (Nat.le_refl _) hkeys sched2 fuel2 run.world run.inFlight
          hinv hcov hw2
      refine ⟨w2, hsettle, ?_⟩
      rw [settled_store _ hinv2 hcov2]
      unfold removeWhere
      apply List.filter_congr
      intro o _
      show (!(inSubtree path o.key && deleteOk (deleteFaults F msg) o))
        = (!inSubtree path o.key || decide (o.key ∈ F))
      rw [deleteOk_deleteFaults]
      cases inSubtree path o.key <;> cases decide (o.key ∈ F) <;> rfl

/-- C6 (amended), instance: deleting `a` when the delete of `a/b/y` fails, the
last call in flight settling first. -/
theorem deleteFolderRecursive_partial_failure_witness :
    ∃ run e, deleteFolderRecursive
        (keyStore (deleteFaults ["a/b/y".toList] (fun k => "cannot delete ".toList ++ k)))
        (fun _ => 5) (workBound 3 8)
        { store := [{ key := "a/x".toList, bytes := [] },
                    { key := "a/b/y".toList, bytes := [] },
                    { key := "c".toList, bytes := [] }],
          calls := [] }
        "a".toList = some run ∧
      run.outcome = .error e ∧
      (∃ k ∈ ["a/b/y".toList], e.message = "cannot delete ".toList ++ k) ∧
      (∀ o ∈ run.world.store, o ∈ ([{ key := "a/x".toList, bytes := [] },
                    { key := "a/b/y".toList, bytes := [] },
                    { key := "c".toList, bytes := [] }] : KeyStore)) ∧
      (∀ o ∈ ([{ key := "a/x".toList, bytes := [] },
                    { key := "a/b/y".toList, bytes := [] },
                    { key := "c".toList, bytes := [] }] : KeyStore),
        (inSubtree "a".toList o.key = false ∨ o.key ∈ ["a/b/y".toList]) → o ∈ run.world.store) ∧
      (∀ (sched2 : Nat → Nat) (fuel2 : Nat), workBound 3 8 ≤ fuel2 →
        ∃ w2, settleAll
            (keyStore (deleteFaults ["a/b/y".toList] (fun k => "cannot delete ".toList ++ k)))
            sched2 fuel2 run.world run.inFlight = some w2 ∧
          w2.store = List.filter
            (fun o => !inSubtree "a".toList o.key || decide (o.key ∈ ["a/b/y".toList]))
            [{ key := "a/x".toList, bytes := [] },
             { key := "a/b/y".toList, bytes := [] },
             { key := "c".toList, bytes := [] }]) :=
  deleteFolderRecursive_partial_failure _ [] "a".toList ["a/b/y".toList]
    (fun k => "cannot delete ".toList ++ k) (fun _ => 5) (workBound 3 8) 8
    (Or.inl (by decide)) (by decide) (by decide) (by decide) (Nat.le_refl _)

end FileStorage
